import Mathlib

/-!
AVR ISP programmer: a shallow embedding of `AvrIspProgrammer.h`.

The header drives the four ISP lines (SCK, MOSI, MISO, RESET) through a
hardware abstraction layer.  Every call into that layer is recorded as an
`Event` appended to a chronological `Trace`; the only input of the program,
the level sampled on MISO, is supplied by a `Target`, an arbitrary function
of the history of line actions performed so far.

C integers are natural numbers; an assignment that can exceed the width of
its variable carries an explicit `% 256` (`uint8_t`) or `% 65536`
(`uint16_t`).  Function parameters are assumed to lie in the range of their C
type (`uint8_t`: below 256, `uint16_t`: below 65536), which is stated as a
hypothesis wherever it matters.

The ready-wait is an unbounded loop: its model takes a bound on the number of
polls and returns `none` when the bound is used up, and so do the operations
that end with a ready-wait.
-/

namespace AvrIsp

/-- One call into the hardware abstraction layer. -/
inductive Event
  | IoInit
  | MosiHigh
  | MosiLow
  | Miso (level : Bool)
  | SckHigh
  | SckLow
  | ResetHigh
  | ResetLow
  | DelayUs (us : Nat)
  deriving DecidableEq

/-- The calls into the hardware abstraction layer, oldest first. -/
abbrev Trace := List Event

/-- The device on the other end of the link: the level it presents on MISO,
given everything that happened on the lines so far. -/
abbrev Target := Trace → Bool

/-! ## Hardware abstraction layer (`AvrIspProgrammerImplementationSpecific.h`) -/

/-- Modelled from the spec: the bit-set macro `_BV` comes from outside the
header (avr-libc, `(1 << (bit))`); the spec calls it a fixed-width bit-set
macro that maps directly to an explicit bitwise operation. -/
def _BV (bit : Nat) : Nat := 1 <<< bit

/-- Modelled from the spec: `ioInit()` of the hardware abstraction layer,
which is not part of the header; the call is recorded. -/
def AvrIspProgrammerIoInit (tr : Trace) : Trace := tr ++ [Event.IoInit]

/-- Modelled from the spec: `setDataOutHigh()` of the hardware abstraction
layer; the call is recorded. -/
def AvrIspProgrammerIoMosiHigh (tr : Trace) : Trace := tr ++ [Event.MosiHigh]

/-- Modelled from the spec: `setDataOutLow()` of the hardware abstraction
layer; the call is recorded. -/
def AvrIspProgrammerIoMosiLow (tr : Trace) : Trace := tr ++ [Event.MosiLow]

/-- Modelled from the spec: `readDataIn() -> bit` of the hardware abstraction
layer; the target decides the level from the history, and the sample is
recorded. -/
def AvrIspProgrammerIoMiso (target : Target) (tr : Trace) : Bool × Trace :=
  (target tr, tr ++ [Event.Miso (target tr)])

/-- Modelled from the spec: `setClockHigh()` of the hardware abstraction
layer; the call is recorded. -/
def AvrIspProgrammerIoSckHigh (tr : Trace) : Trace := tr ++ [Event.SckHigh]

/-- Modelled from the spec: `setClockLow()` of the hardware abstraction
layer; the call is recorded. -/
def AvrIspProgrammerIoSckLow (tr : Trace) : Trace := tr ++ [Event.SckLow]

/-- Modelled from the spec: `setResetHigh()` of the hardware abstraction
layer; the call is recorded. -/
def AvrIspProgrammerIoResetHigh (tr : Trace) : Trace := tr ++ [Event.ResetHigh]

/-- Modelled from the spec: `setResetLow()` of the hardware abstraction
layer; the call is recorded. -/
def AvrIspProgrammerIoResetLow (tr : Trace) : Trace := tr ++ [Event.ResetLow]

/-- Modelled from the spec: `delayMicroseconds(n)` of the hardware abstraction
layer; the call is recorded with its argument. -/
def AvrIspProgrammerDelayUs (us : Nat) (tr : Trace) : Trace := tr ++ [Event.DelayUs us]

/-! ## The header -/

/-- Source: `AvrIspProgrammerDelay2CyclesTargetCPU`. -/
def AvrIspProgrammerDelay2CyclesTargetCPU (tr : Trace) : Trace :=
  AvrIspProgrammerDelayUs 5 tr

/-- The `for (int8_t bit = 7; bit >= 0; bit--)` loop of
`AvrIspProgrammerSpiTransfer`.  The first argument is `bit + 1`, so the loop
stops when it reaches `0` (that is, when `bit` would become `-1`).
`~_BV(bit)` is a 16-bit `int` on the AVR: the complement is taken in 16 bits,
and the result is truncated when it is stored in the `uint8_t value`. -/
def spiTransferLoop (target : Target) : Nat → Nat → Trace → Nat × Trace
  | 0, value, tr => (value, tr)
  | bit + 1, value, tr =>
    -- Send bit
    let tr := if value &&& _BV bit ≠ 0 then AvrIspProgrammerIoMosiHigh tr
              else AvrIspProgrammerIoMosiLow tr
    -- Receive bit
    let value := (value &&& (0xFFFF ^^^ _BV bit)) % 256
    let sample := AvrIspProgrammerIoMiso target tr
    let value := if sample.1 then (value ||| _BV bit) % 256 else value
    -- Clock out the bit.
    let tr := AvrIspProgrammerIoSckHigh sample.2
    let tr := AvrIspProgrammerDelay2CyclesTargetCPU tr
    let tr := AvrIspProgrammerIoSckLow tr
    let tr := AvrIspProgrammerDelay2CyclesTargetCPU tr
    spiTransferLoop target bit value tr

/-- Source: `AvrIspProgrammerSpiTransfer`.  Returns the answer of the SPI
slave and the extended trace. -/
def AvrIspProgrammerSpiTransfer (target : Target) (value : Nat) (tr : Trace) : Nat × Trace :=
  spiTransferLoop target 8 value tr

/-- Source: `AvrIspProgrammerSerialProgrammingInstruction`. -/
def AvrIspProgrammerSerialProgrammingInstruction (target : Target)
    (byte1 byte2 byte3 byte4 : Nat) (tr : Trace) : Nat × Trace :=
  let r1 := AvrIspProgrammerSpiTransfer target byte1 tr
  let r2 := AvrIspProgrammerSpiTransfer target byte2 r1.2
  let r3 := AvrIspProgrammerSpiTransfer target byte3 r2.2
  AvrIspProgrammerSpiTransfer target byte4 r3.2

/-- Source: `AvrIspProgrammerDisableSerialProgramming`. -/
def AvrIspProgrammerDisableSerialProgramming (tr : Trace) : Trace :=
  AvrIspProgrammerIoResetHigh tr

/-- The body of the retry loop of `AvrIspProgrammerEnableSerialProgramming`
up to, and not including, the test of `echo`: returns `echo` and the trace. -/
def enableAttempt (target : Target) (tr : Trace) : Nat × Trace :=
  let tr := AvrIspProgrammerIoSckLow tr
  -- Pulse reset.
  let tr := AvrIspProgrammerIoResetHigh tr
  let tr := AvrIspProgrammerDelay2CyclesTargetCPU tr
  let tr := AvrIspProgrammerIoResetLow tr
  let tr := AvrIspProgrammerDelayUs 20000 tr
  -- Send programming enable
  let r1 := AvrIspProgrammerSpiTransfer target 0xAC tr
  let r2 := AvrIspProgrammerSpiTransfer target 0x53 r1.2
  let echo := AvrIspProgrammerSpiTransfer target 0x00 r2.2
  let r4 := AvrIspProgrammerSpiTransfer target 0x00 echo.2
  (echo.1, r4.2)

/-- The `for (int8_t retries = 16; retries > 0; retries--)` loop of
`AvrIspProgrammerEnableSerialProgramming`.  The Boolean tells whether the
loop was left by `return 1` (`true`) or ran out of retries (`false`). -/
def enableLoop (target : Target) : Nat → Trace → Bool × Trace
  | 0, tr => (false, tr)
  | retries + 1, tr =>
    let a := enableAttempt target tr
    if a.1 = 0x53 then (true, a.2) else enableLoop target retries a.2

/-- Source: `AvrIspProgrammerEnableSerialProgramming`. -/
def AvrIspProgrammerEnableSerialProgramming (target : Target) (tr : Trace) : Nat × Trace :=
  let tr := AvrIspProgrammerIoInit tr
  let l := enableLoop target 16 tr
  if l.1 then (1, l.2) else (0, AvrIspProgrammerDisableSerialProgramming l.2)

/-- Source: `AvrIspProgrammerLoadProgramMemoryPage`.  The function returns
nothing; the model returns the trace. -/
def AvrIspProgrammerLoadProgramMemoryPage (target : Target) (address data : Nat)
    (tr : Trace) : Trace :=
  let wordAddress := (address >>> 1) % 256
  if address &&& 0x01 ≠ 0 then
    (AvrIspProgrammerSerialProgrammingInstruction target 0x48 0x00 wordAddress data tr).2
  else
    (AvrIspProgrammerSerialProgrammingInstruction target 0x40 0x00 wordAddress data tr).2

/-- Source: `AvrIspProgrammerReadProgramMemory`. -/
def AvrIspProgrammerReadProgramMemory (target : Target) (address : Nat)
    (tr : Trace) : Nat × Trace :=
  let wordAddress := (address >>> 1) % 65536
  let addressWordLSB := (wordAddress &&& 0xFF) % 256
  let addressWordMSB := (wordAddress >>> 8) % 256
  if address &&& 0x01 ≠ 0 then
    AvrIspProgrammerSerialProgrammingInstruction target 0x28 addressWordMSB addressWordLSB 0x00 tr
  else
    AvrIspProgrammerSerialProgrammingInstruction target 0x20 addressWordMSB addressWordLSB 0x00 tr


/-! ## Reading a trace -/

/-- The HAL call that drives MOSI to level `b`. -/
def mosiEvent (b : Bool) : Event := if b then Event.MosiHigh else Event.MosiLow

/-- The six line actions of one round of the transfer loop, in order: drive
MOSI to `b`, sample MISO (seeing `s`), clock high, delay, clock low, delay. -/
def bitRound (b s : Bool) : Trace :=
  [mosiEvent b, Event.Miso s, Event.SckHigh, Event.DelayUs 5, Event.SckLow, Event.DelayUs 5]

/-- Bits `n-1, ..., 0` of `v`, most significant first. -/
def bitsMSB : Nat → Nat → List Bool
  | 0, _ => []
  | n + 1, v => v.testBit n :: bitsMSB n v

/-- The number whose binary digits, most significant first, are `bs`:
for `[s0, ..., s7]` this is the sum of `s_i * 2^(7-i)`. -/
def bitsVal : List Bool → Nat
  | [] => 0
  | b :: bs => b.toNat * 2 ^ bs.length + bitsVal bs

/-- The line actions of clocking out the bits `m` (first bit first) against
`target`, starting from history `tr`. -/
def transferEvents (target : Target) : Trace → List Bool → Trace
  | _, [] => []
  | tr, b :: m =>
    bitRound b (target (tr ++ [mosiEvent b])) ++
      transferEvents target (tr ++ bitRound b (target (tr ++ [mosiEvent b]))) m

/-- The levels driven on MOSI, oldest first. -/
def mosiBits (tr : Trace) : List Bool :=
  tr.filterMap fun e =>
    match e with
    | Event.MosiHigh => some true
    | Event.MosiLow => some false
    | _ => none

/-- The levels sampled on MISO, oldest first. -/
def misoSamples (tr : Trace) : List Bool :=
  tr.filterMap fun e =>
    match e with
    | Event.Miso s => some s
    | _ => none

/-- The actions on the reset line, oldest first. -/
def resetLine (tr : Trace) : Trace :=
  tr.filter fun e => decide (e = Event.ResetHigh ∨ e = Event.ResetLow)

/-- Groups a bit stream into bytes, eight bits each, most significant bit
first; an incomplete last group is dropped. -/
def bytesOfBits : List Bool → List Nat
  | b7 :: b6 :: b5 :: b4 :: b3 :: b2 :: b1 :: b0 :: rest =>
    bitsVal [b7, b6, b5, b4, b3, b2, b1, b0] :: bytesOfBits rest
  | _ => []

/-- The bytes shifted out on MOSI. -/
def sentBytes (tr : Trace) : List Nat := bytesOfBits (mosiBits tr)

/-- The bytes shifted in on MISO. -/
def recvBytes (tr : Trace) : List Nat := bytesOfBits (misoSamples tr)

/-! ## Simulated targets -/

/-- Loopback link: MISO shows the level last driven on MOSI (low if MOSI was
never driven). -/
def loopback : Target := fun tr => ((mosiBits tr).getLast?).getD false

/-- A target that never answers: MISO stays low. -/
def silent : Target := fun _ => false

/-- A target that shifts out `0x53` while the third byte of the `k`-th
four-byte frame (counted from 1) is transferred, and keeps MISO low at every
other time.  The position in the stream is the number of samples taken so
far. -/
def syncAt (k : Nat) : Target := fun tr =>
  let n := (misoSamples tr).length
  decide (32 * (k - 1) + 16 ≤ n) && decide (n < 32 * (k - 1) + 24) &&
    (bitsMSB 8 0x53).getD (n - (32 * (k - 1) + 16)) false

/-- The history after `j` attempts made back to back from history `tr`. -/
def afterAttempts (target : Target) : Nat → Trace → Trace
  | 0, tr => tr
  | j + 1, tr => afterAttempts target j (enableAttempt target tr).2

/-- The byte returned while the third Programming-Enable byte is transferred
in attempt number `j` (counted from 0), when attempts are made back to back
starting from history `tr`. -/
def attemptEcho (target : Target) (j : Nat) (tr : Trace) : Nat :=
  (enableAttempt target (afterAttempts target j tr)).1

/-- The line actions that open every attempt of
`AvrIspProgrammerEnableSerialProgramming`, before the first byte is sent. -/
def attemptHeader : Trace :=
  [Event.SckLow, Event.ResetHigh, Event.DelayUs 5, Event.ResetLow, Event.DelayUs 20000]

/-- The Programming-Enable instruction. -/
def programmingEnable : List Nat := [0xAC, 0x53, 0x00, 0x00]

/-- The line actions of one instruction frame carrying `bytes`: 32 levels on
MOSI that spell `bytes`, 32 samples of MISO, and no action on the reset
line. -/
def IsFrame (bytes : List Nat) (evs : Trace) : Prop :=
  sentBytes evs = bytes ∧ (mosiBits evs).length = 32 ∧ (misoSamples evs).length = 32 ∧
    resetLine evs = []

instance (bytes : List Nat) (evs : Trace) : Decidable (IsFrame bytes evs) := by
  unfold IsFrame
  infer_instance

/-! ## The header, continued -/

/-- Source: `FuseBits_t`. -/
structure FuseBits_t where
  low : Nat
  high : Nat
  extended : Nat
  deriving DecidableEq

/-- Source: `AvrIspProgrammerPollRDY`. -/
def AvrIspProgrammerPollRDY (target : Target) (tr : Trace) : Nat × Trace :=
  let r := AvrIspProgrammerSerialProgrammingInstruction target 0xF0 0x00 0x00 0x00 tr
  (r.1 &&& 0b00000001, r.2)

/-- Source: `AvrIspProgrammingWaitReady`.  The `while` loop of the source has
no bound; the model takes the largest number of polls it may make (`fuel`)
and returns `none` when that many polls have all reported busy. -/
def AvrIspProgrammingWaitReady (target : Target) : Nat → Trace → Option Trace
  | 0, _ => none
  | fuel + 1, tr =>
    let p := AvrIspProgrammerPollRDY target tr
    if p.1 ≠ 0 then
      AvrIspProgrammingWaitReady target fuel (AvrIspProgrammerDelayUs 1000 p.2)
    else some p.2

/-- Source: `AvrIspProgrammerChipErase`.  `fuel` bounds the polls of the
ready-wait. -/
def AvrIspProgrammerChipErase (target : Target) (fuel : Nat) (tr : Trace) : Option Trace :=
  let r := AvrIspProgrammerSerialProgrammingInstruction target 0xAC 0x80 0x00 0x00 tr
  AvrIspProgrammingWaitReady target fuel r.2

/-- Source: `AvrIspProgrammerLoadExtendedAddress`. -/
def AvrIspProgrammerLoadExtendedAddress (target : Target) (extendedAddress : Nat)
    (tr : Trace) : Trace :=
  (AvrIspProgrammerSerialProgrammingInstruction target 0x4D 0x00 extendedAddress 0x00 tr).2

/-- Source: `AvrIspProgrammerReadLockBits`. -/
def AvrIspProgrammerReadLockBits (target : Target) (tr : Trace) : Nat × Trace :=
  AvrIspProgrammerSerialProgrammingInstruction target 0x58 0x00 0x00 0x00 tr

/-- The `for (uint8_t i = 0; i < 3; i++)` loop of
`AvrIspProgrammerReadSignature`, entered with the current value of `i`.  The
array `signature` is the map from index to byte. -/
def readSignatureLoop (target : Target) (i : Nat) (signature : Nat → Nat) (tr : Trace) :
    (Nat → Nat) × Trace :=
  if i < 3 then
    let r := AvrIspProgrammerSerialProgrammingInstruction target 0x30 0x00 i 0x00 tr
    readSignatureLoop target ((i + 1) % 256) (Function.update signature i r.1) r.2
  else (signature, tr)
termination_by 3 - i
decreasing_by omega

/-- Source: `AvrIspProgrammerReadSignature`.  Returns the array after the
call and the trace. -/
def AvrIspProgrammerReadSignature (target : Target) (signature : Nat → Nat) (tr : Trace) :
    (Nat → Nat) × Trace :=
  readSignatureLoop target 0 signature tr

/-- Source: `AvrIspProgrammerReadFuseBits`.  Returns the structure behind the
pointer after the call and the trace. -/
def AvrIspProgrammerReadFuseBits (target : Target) (fusebits : FuseBits_t) (tr : Trace) :
    FuseBits_t × Trace :=
  let r1 := AvrIspProgrammerSerialProgrammingInstruction target 0x50 0x00 0x00 0x00 tr
  let fusebits := { fusebits with low := r1.1 }
  let r2 := AvrIspProgrammerSerialProgrammingInstruction target 0x58 0x08 0x00 0x00 r1.2
  let fusebits := { fusebits with high := r2.1 }
  let r3 := AvrIspProgrammerSerialProgrammingInstruction target 0x50 0x08 0x00 0x00 r2.2
  let fusebits := { fusebits with extended := r3.1 }
  (fusebits, r3.2)

/-- Source: `AvrIspProgrammerReadCalibrationByte`. -/
def AvrIspProgrammerReadCalibrationByte (target : Target) (tr : Trace) : Nat × Trace :=
  AvrIspProgrammerSerialProgrammingInstruction target 0x38 0x00 0x00 0x00 tr

/-- Source: `AvrIspProgrammerWriteMemoryPage`.  `fuel` bounds the polls of
the ready-wait. -/
def AvrIspProgrammerWriteMemoryPage (target : Target) (address : Nat) (fuel : Nat)
    (tr : Trace) : Option Trace :=
  let wordAddress := (address >>> 1) % 65536
  let addressWordLSB := (wordAddress &&& 0xFF) % 256
  let addressWordMSB := (wordAddress >>> 8) % 256
  let r := AvrIspProgrammerSerialProgrammingInstruction target 0x4C addressWordMSB
    addressWordLSB 0x00 tr
  AvrIspProgrammingWaitReady target fuel r.2

/-- Source: `AvrIspProgrammerWriteLockBits`.  `fuel` bounds the polls of the
ready-wait. -/
def AvrIspProgrammerWriteLockBits (target : Target) (lockbits : Nat) (fuel : Nat)
    (tr : Trace) : Option Trace :=
  let r := AvrIspProgrammerSerialProgrammingInstruction target 0xAC 0xE0 0x00 lockbits tr
  AvrIspProgrammingWaitReady target fuel r.2

/-- Source: `AvrIspProgrammerWriteFuseBits`.  `fuel` bounds the polls of each
ready-wait.  Returns the structure behind the pointer after the call (the
source never assigns through it) and the trace. -/
def AvrIspProgrammerWriteFuseBits (target : Target) (fusebits : FuseBits_t) (fuel : Nat)
    (tr : Trace) : Option (FuseBits_t × Trace) :=
  let r1 := AvrIspProgrammerSerialProgrammingInstruction target 0xAC 0xA0 0x00 fusebits.low tr
  (AvrIspProgrammingWaitReady target fuel r1.2).bind fun tr1 =>
  let r2 := AvrIspProgrammerSerialProgrammingInstruction target 0xAC 0xA8 0x00 fusebits.high tr1
  (AvrIspProgrammingWaitReady target fuel r2.2).bind fun tr2 =>
  let r3 := AvrIspProgrammerSerialProgrammingInstruction target 0xAC 0xA4 0x00
    fusebits.extended tr2
  (AvrIspProgrammingWaitReady target fuel r3.2).bind fun tr3 =>
  some (fusebits, tr3)

/-! ## Frames on the wire -/

/-- The poll instruction. -/
def pollFrame : List Nat := [0xF0, 0x00, 0x00, 0x00]

/-- Groups a byte stream into instruction frames of four bytes; an incomplete
last group is dropped. -/
def framesOf : List Nat → List (List Nat)
  | b1 :: b2 :: b3 :: b4 :: rest => [b1, b2, b3, b4] :: framesOf rest
  | _ => []

/-- Keeps the fourth byte of every group of four. -/
def fourthOf : List Nat → List Nat
  | _ :: _ :: _ :: r :: rest => r :: fourthOf rest
  | _ => []

/-- The instruction frames shifted out on MOSI, oldest first. -/
def sentFrames (tr : Trace) : List (List Nat) := framesOf (sentBytes tr)

/-- The response to every frame: the byte shifted in on MISO while the fourth
byte of the frame is shifted out. -/
def responses (tr : Trace) : List Nat := fourthOf (recvBytes tr)

/-- The events `evs` are exactly the exchanges `xs`, each a frame and its
response, with nothing else on MOSI or MISO and nothing on the reset line. -/
def Wire (evs : Trace) (xs : List (List Nat × Nat)) : Prop :=
  sentFrames evs = xs.map Prod.fst ∧ responses evs = xs.map Prod.snd ∧
    (mosiBits evs).length = 8 * (4 * xs.length) ∧
    (misoSamples evs).length = 8 * (4 * xs.length) ∧ resetLine evs = []

instance (evs : Trace) (xs : List (List Nat × Nat)) : Decidable (Wire evs xs) := by
  unfold Wire
  infer_instance

/-- The history after `j` polls that were each followed by the delay of 1000
microseconds, made back to back from history `tr`. -/
def afterPolls (target : Target) : Nat → Trace → Trace
  | 0, tr => tr
  | j + 1, tr =>
    afterPolls target j (AvrIspProgrammerDelayUs 1000 (AvrIspProgrammerPollRDY target tr).2)

/-- The value of poll number `j` (counted from 0) of a ready-wait started at
history `tr`: bit 0 of the response of the target to that poll. -/
def pollAt (target : Target) (j : Nat) (tr : Trace) : Nat :=
  (AvrIspProgrammerPollRDY target (afterPolls target j tr)).1

/-- A target that answers `0x01` (busy) to the `k` frames number
`first, ..., first + k - 1` that it receives and `0x00` to every other frame
(the first frame it receives has number 0).  The position in the stream is
the number of samples taken so far. -/
def busyPolls (first k : Nat) : Target := fun tr =>
  let n := (misoSamples tr).length
  decide (n % 32 = 31) && decide (first ≤ n / 32) && decide (n / 32 < first + k)

/-- The exchanges on the wire, oldest first: every frame sent, paired with
the response received while its fourth byte was sent. -/
def exchanges (tr : Trace) : List (List Nat × Nat) := (sentFrames tr).zip (responses tr)

/-- Checks a list of exchanges against the ready-wait discipline.  With
`pending = false` no write is outstanding and the next frame must be an
instruction other than the poll; with `pending = true` the next frame must be
a poll, which ends the wait exactly when bit 0 of its response is clear.  At
the end no write may be outstanding. -/
def readyWaited : Bool → List (List Nat × Nat) → Bool
  | pending, [] => !pending
  | false, x :: xs => decide (x.1 ≠ pollFrame) && readyWaited true xs
  | true, x :: xs => decide (x.1 = pollFrame) && readyWaited (decide (x.2 % 2 = 1)) xs

/-- The operations of the header, with their arguments (for an operation
that takes a pointer, the contents behind it before the call). -/
inductive Op
  | begin
  | poll
  | waitReady
  | chipErase
  | loadExtendedAddress (extendedAddress : Nat)
  | loadProgramMemoryPage (address data : Nat)
  | writeMemoryPage (address : Nat)
  | readProgramMemory (address : Nat)
  | readLockBits
  | writeLockBits (lockbits : Nat)
  | readFuseBits (fusebits : FuseBits_t)
  | writeFuseBits (fusebits : FuseBits_t)
  | readSignature (signature : Nat → Nat)
  | readCalibrationByte

/-- Runs an operation and keeps the trace; `none` when a ready-wait ran out
of `fuel`. -/
def Op.run (target : Target) (fuel : Nat) (tr : Trace) : Op → Option Trace
  | Op.begin => some (AvrIspProgrammerEnableSerialProgramming target tr).2
  | Op.poll => some (AvrIspProgrammerPollRDY target tr).2
  | Op.waitReady => AvrIspProgrammingWaitReady target fuel tr
  | Op.chipErase => AvrIspProgrammerChipErase target fuel tr
  | Op.loadExtendedAddress e => some (AvrIspProgrammerLoadExtendedAddress target e tr)
  | Op.loadProgramMemoryPage a d => some (AvrIspProgrammerLoadProgramMemoryPage target a d tr)
  | Op.writeMemoryPage a => AvrIspProgrammerWriteMemoryPage target a fuel tr
  | Op.readProgramMemory a => some (AvrIspProgrammerReadProgramMemory target a tr).2
  | Op.readLockBits => some (AvrIspProgrammerReadLockBits target tr).2
  | Op.writeLockBits b => AvrIspProgrammerWriteLockBits target b fuel tr
  | Op.readFuseBits f => some (AvrIspProgrammerReadFuseBits target f tr).2
  | Op.writeFuseBits f => (AvrIspProgrammerWriteFuseBits target f fuel tr).map Prod.snd
  | Op.readSignature s => some (AvrIspProgrammerReadSignature target s tr).2
  | Op.readCalibrationByte => some (AvrIspProgrammerReadCalibrationByte target tr).2

/-- The arguments of an operation are in the range of their C types. -/
def Op.InRange : Op → Prop
  | Op.loadExtendedAddress e => e < 256
  | Op.loadProgramMemoryPage a d => a < 65536 ∧ d < 256
  | Op.writeMemoryPage a => a < 65536
  | Op.readProgramMemory a => a < 65536
  | Op.writeLockBits b => b < 256
  | Op.readFuseBits f => f.low < 256 ∧ f.high < 256 ∧ f.extended < 256
  | Op.writeFuseBits f => f.low < 256 ∧ f.high < 256 ∧ f.extended < 256
  | _ => True

instance (op : Op) : Decidable op.InRange := by
  cases op <;> unfold Op.InRange <;> infer_instance

/-- The long-latency write operations. -/
def Op.isLongWrite : Op → Bool
  | Op.chipErase => true
  | Op.writeMemoryPage _ => true
  | Op.writeLockBits _ => true
  | Op.writeFuseBits _ => true
  | _ => false

/-! ## Bit-level lemmas -/

theorem BV_eq (bit : Nat) : _BV bit = 2 ^ bit := by
  simp [_BV, Nat.shiftLeft_eq]

theorem and_BV_ne_zero (v bit : Nat) : (v &&& _BV bit ≠ 0) ↔ v.testBit bit = true := by
  rw [BV_eq, Nat.and_two_pow]
  cases h : v.testBit bit <;> simp

theorem testBit_clear (v bit i : Nat) (hb : bit < 8) :
    ((v &&& (0xFFFF ^^^ _BV bit)) % 256).testBit i
      = (decide (i < 8) && (decide (i ≠ bit) && v.testBit i)) := by
  have h256 : (256 : Nat) = 2 ^ 8 := by norm_num
  have hff : (0xFFFF : Nat) = 2 ^ 16 - 1 := by norm_num
  rw [h256, Nat.testBit_mod_two_pow, Nat.testBit_land, Nat.testBit_xor, BV_eq,
    Nat.testBit_two_pow, hff, Nat.testBit_two_pow_sub_one]
  by_cases h8 : i < 8
  · have h16 : i < 16 := by omega
    by_cases hi : bit = i
    · subst hi; simp; omega
    · have hi2 : i ≠ bit := fun h => hi h.symm
      simp [h8, h16, hi, hi2]
  · simp [h8]

theorem testBit_set (v bit i : Nat) :
    ((v ||| _BV bit) % 256).testBit i
      = (decide (i < 8) && (v.testBit i || decide (bit = i))) := by
  have h256 : (256 : Nat) = 2 ^ 8 := by norm_num
  rw [h256, Nat.testBit_mod_two_pow, Nat.testBit_lor, BV_eq, Nat.testBit_two_pow]

set_option maxRecDepth 100000 in
theorem byte_eq_bitsVal : ∀ r, r < 256 → bitsVal (bitsMSB 8 r) = r := by
  decide


theorem bitsMSB_length (n v : Nat) : (bitsMSB n v).length = n := by
  induction n with
  | zero => rfl
  | succ n ih => simp [bitsMSB, ih]

theorem bitsMSB_congr (n a b : Nat) (h : ∀ i, i < n → a.testBit i = b.testBit i) :
    bitsMSB n a = bitsMSB n b := by
  induction n with
  | zero => rfl
  | succ n ih =>
    simp only [bitsMSB]
    rw [h n (Nat.lt_succ_self n), ih (fun i hi => h i (Nat.lt_succ_of_lt hi))]

/-- The value of the loop variable after one round: bit `bit` is replaced by
the sample, every other bit below 8 is kept. -/
theorem testBit_round (v bit i : Nat) (s : Bool) (hb : bit < 8) (hv : v < 256) :
    (if s = true then ((v &&& (0xFFFF ^^^ _BV bit)) % 256 ||| _BV bit) % 256
      else (v &&& (0xFFFF ^^^ _BV bit)) % 256).testBit i
      = if i = bit then s else v.testBit i := by
  have hhigh : ∀ j, 8 ≤ j → v.testBit j = false := fun j hj =>
    Nat.testBit_lt_two_pow (lt_of_lt_of_le hv (by
      calc (256 : Nat) = 2 ^ 8 := by norm_num
        _ ≤ 2 ^ j := Nat.pow_le_pow_right (by norm_num) hj))
  cases s
  · simp only [Bool.false_eq_true, if_false]
    rw [testBit_clear v bit i hb]
    by_cases hi : i = bit
    · simp [hi]
    · by_cases h8 : i < 8
      · simp [hi, h8]
      · simp [hi, h8, hhigh i (by omega)]
  · simp only [if_true]
    rw [testBit_set, testBit_clear v bit i hb]
    by_cases hi : i = bit
    · subst hi; simp [hb]
    · have hi2 : ¬ bit = i := fun h => hi h.symm
      by_cases h8 : i < 8
      · simp [hi, hi2, h8]
      · simp [hi, hi2, h8, hhigh i (by omega)]

theorem round_lt (v bit : Nat) (s : Bool) :
    (if s = true then ((v &&& (0xFFFF ^^^ _BV bit)) % 256 ||| _BV bit) % 256
      else (v &&& (0xFFFF ^^^ _BV bit)) % 256) < 256 := by
  split <;> exact Nat.mod_lt _ (by norm_num)

theorem misoSamples_append (a b : Trace) :
    misoSamples (a ++ b) = misoSamples a ++ misoSamples b := by
  simp [misoSamples, List.filterMap_append]

theorem mosiBits_append (a b : Trace) :
    mosiBits (a ++ b) = mosiBits a ++ mosiBits b := by
  simp [mosiBits, List.filterMap_append]

theorem resetLine_append (a b : Trace) :
    resetLine (a ++ b) = resetLine a ++ resetLine b := by
  simp [resetLine, List.filter_append]

theorem misoSamples_bitRound (b s : Bool) : misoSamples (bitRound b s) = [s] := by
  cases b <;> rfl

theorem mosiBits_bitRound (b s : Bool) : mosiBits (bitRound b s) = [b] := by
  cases b <;> rfl

theorem resetLine_bitRound (b s : Bool) : resetLine (bitRound b s) = [] := by
  cases b <;> rfl

theorem mosiBits_transferEvents (target : Target) (m : List Bool) :
    ∀ tr, mosiBits (transferEvents target tr m) = m := by
  induction m with
  | nil => intro tr; rfl
  | cons b m ih =>
    intro tr
    simp only [transferEvents, mosiBits_append, mosiBits_bitRound, ih]
    rfl

theorem resetLine_transferEvents (target : Target) (m : List Bool) :
    ∀ tr, resetLine (transferEvents target tr m) = [] := by
  induction m with
  | nil => intro tr; rfl
  | cons b m ih =>
    intro tr
    simp only [transferEvents, resetLine_append, resetLine_bitRound, ih]
    rfl

theorem misoSamples_transferEvents_length (target : Target) (m : List Bool) :
    ∀ tr, (misoSamples (transferEvents target tr m)).length = m.length := by
  induction m with
  | nil => intro tr; rfl
  | cons b m ih =>
    intro tr
    simp only [transferEvents, misoSamples_append, misoSamples_bitRound, List.length_append, ih]
    simp [Nat.add_comm]

/-- What the transfer loop does when started with `bit + 1 = n`: it appends
the rounds for bits `n-1 .. 0` of `v`, and the low `n` bits of the result are
the samples. -/
theorem spiTransferLoop_spec (target : Target) :
    ∀ n v tr, n ≤ 8 → v < 256 →
      (spiTransferLoop target n v tr).2 = tr ++ transferEvents target tr (bitsMSB n v) ∧
      (spiTransferLoop target n v tr).1 < 256 ∧
      bitsMSB n (spiTransferLoop target n v tr).1
        = misoSamples (transferEvents target tr (bitsMSB n v)) ∧
      ∀ i, n ≤ i → (spiTransferLoop target n v tr).1.testBit i = v.testBit i := by
  intro n
  induction n with
  | zero =>
    intro v tr _ hv
    simp [spiTransferLoop, bitsMSB, transferEvents, misoSamples, hv]
  | succ n ih =>
    intro v tr hn hv
    have hb : n < 8 := by omega
    have htr : (if v &&& _BV n ≠ 0 then AvrIspProgrammerIoMosiHigh tr
        else AvrIspProgrammerIoMosiLow tr) = tr ++ [mosiEvent (v.testBit n)] := by
      by_cases h : v.testBit n = true
      · rw [if_pos ((and_BV_ne_zero v n).2 h), h]; rfl
      · rw [if_neg (fun hc => h ((and_BV_ne_zero v n).1 hc))]
        rw [Bool.not_eq_true] at h
        rw [h]; rfl
    obtain ⟨h1, h2, h3, h4⟩ := ih
      (if target (tr ++ [mosiEvent (v.testBit n)]) = true
        then ((v &&& (0xFFFF ^^^ _BV n)) % 256 ||| _BV n) % 256
        else (v &&& (0xFFFF ^^^ _BV n)) % 256)
      (tr ++ bitRound (v.testBit n) (target (tr ++ [mosiEvent (v.testBit n)])))
      (by omega) (round_lt v n _)
    have hlow : bitsMSB n (if target (tr ++ [mosiEvent (v.testBit n)]) = true
        then ((v &&& (0xFFFF ^^^ _BV n)) % 256 ||| _BV n) % 256
        else (v &&& (0xFFFF ^^^ _BV n)) % 256) = bitsMSB n v := by
      apply bitsMSB_congr
      intro i hi
      rw [testBit_round v n i _ hb hv, if_neg (by omega)]
    have hunf : spiTransferLoop target (n + 1) v tr
        = spiTransferLoop target n
            (if target (tr ++ [mosiEvent (v.testBit n)]) = true
              then ((v &&& (0xFFFF ^^^ _BV n)) % 256 ||| _BV n) % 256
              else (v &&& (0xFFFF ^^^ _BV n)) % 256)
            (tr ++ bitRound (v.testBit n) (target (tr ++ [mosiEvent (v.testBit n)]))) := by
      rw [spiTransferLoop]
      simp only [htr, AvrIspProgrammerIoMiso, AvrIspProgrammerIoSckHigh,
        AvrIspProgrammerDelay2CyclesTargetCPU, AvrIspProgrammerDelayUs,
        AvrIspProgrammerIoSckLow, bitRound, List.append_assoc, List.singleton_append,
        List.cons_append, List.nil_append]
    rw [hlow] at h1 h3
    rw [hunf]
    refine ⟨?_, h2, ?_, ?_⟩
    · rw [h1]; simp [bitsMSB, transferEvents, List.append_assoc]
    · simp only [bitsMSB, transferEvents, misoSamples_append, misoSamples_bitRound,
        List.singleton_append]
      rw [h3, h4 n (le_refl n), testBit_round v n n _ hb hv, if_pos rfl]
    · intro i hi
      rw [h4 i (by omega), testBit_round v n i _ hb hv, if_neg (by omega)]


/-! ## One byte transfer -/

theorem eq_of_length_eight {α : Type} (s : List α) (h : s.length = 8) :
    ∃ a0 a1 a2 a3 a4 a5 a6 a7, s = [a0, a1, a2, a3, a4, a5, a6, a7] := by
  match s, h with
  | [a0, a1, a2, a3, a4, a5, a6, a7], _ => exact ⟨a0, a1, a2, a3, a4, a5, a6, a7, rfl⟩


theorem spiTransfer_spec (target : Target) (v : Nat) (tr : Trace) (hv : v < 256) :
    AvrIspProgrammerSpiTransfer target v tr
      = (bitsVal (misoSamples (transferEvents target tr (bitsMSB 8 v))),
          tr ++ transferEvents target tr (bitsMSB 8 v)) := by
  obtain ⟨h1, h2, h3, _⟩ := spiTransferLoop_spec target 8 v tr (le_refl 8) hv
  have hr := byte_eq_bitsVal _ h2
  rw [h3] at hr
  unfold AvrIspProgrammerSpiTransfer
  exact Prod.ext hr.symm h1

theorem loopback_after_mosi (tr : Trace) (b : Bool) :
    loopback (tr ++ [mosiEvent b]) = b := by
  have h : mosiBits [mosiEvent b] = [b] := by cases b <;> rfl
  simp [loopback, mosiBits_append, h]

theorem misoSamples_loopback (m : List Bool) :
    ∀ tr, misoSamples (transferEvents loopback tr m) = m := by
  induction m with
  | nil => intro tr; rfl
  | cons b m ih =>
    intro tr
    simp only [transferEvents, misoSamples_append, misoSamples_bitRound, ih,
      loopback_after_mosi]
    rfl

/-- C3. On a loopback link, where every sample of data-in equals the level
last driven on data-out, the transfer of a byte `v` returns `v`. -/
theorem spiTransfer_loopback (v : Nat) (tr : Trace) (hv : v < 256) :
    (AvrIspProgrammerSpiTransfer loopback v tr).1 = v := by
  rw [spiTransfer_spec loopback v tr hv]
  show bitsVal (misoSamples (transferEvents loopback tr (bitsMSB 8 v))) = v
  rw [misoSamples_loopback]
  exact byte_eq_bitsVal v hv

/-- Witness of C3 at the byte `0xA5` of the spec. -/
theorem spiTransfer_loopback_witness :
    (0xA5 : Nat) < 256 ∧ (AvrIspProgrammerSpiTransfer loopback 0xA5 []).1 = 0xA5 :=
  ⟨by decide, spiTransfer_loopback 0xA5 [] (by decide)⟩

/-- C4. Whatever byte `v` is sent, the transfer takes exactly eight samples
`s0 .. s7` of data-in and returns the byte whose bit `7 - i` is `s_i`; the
value is a function of the samples alone. -/
theorem spiTransfer_result (target : Target) (v : Nat) (tr : Trace) (hv : v < 256) :
    ∃ (evs : Trace) (s0 s1 s2 s3 s4 s5 s6 s7 : Bool),
      (AvrIspProgrammerSpiTransfer target v tr).2 = tr ++ evs ∧
      misoSamples evs = [s0, s1, s2, s3, s4, s5, s6, s7] ∧
      (AvrIspProgrammerSpiTransfer target v tr).1
        = s0.toNat * 128 + s1.toNat * 64 + s2.toNat * 32 + s3.toNat * 16
          + s4.toNat * 8 + s5.toNat * 4 + s6.toNat * 2 + s7.toNat := by
  rw [spiTransfer_spec target v tr hv]
  have hlen := misoSamples_transferEvents_length target (bitsMSB 8 v) tr
  rw [bitsMSB_length] at hlen
  obtain ⟨s0, s1, s2, s3, s4, s5, s6, s7, hs⟩ := eq_of_length_eight _ hlen
  refine ⟨_, s0, s1, s2, s3, s4, s5, s6, s7, rfl, hs, ?_⟩
  show bitsVal (misoSamples (transferEvents target tr (bitsMSB 8 v))) = _
  rw [hs]
  simp [bitsVal]
  ring

/-- Witness of C4 at the byte `0xA5`, sent to a target that keeps data-in
low. -/
theorem spiTransfer_result_witness :
    (0xA5 : Nat) < 256 ∧
    ∃ (evs : Trace) (s0 s1 s2 s3 s4 s5 s6 s7 : Bool),
      (AvrIspProgrammerSpiTransfer silent 0xA5 []).2 = [] ++ evs ∧
      misoSamples evs = [s0, s1, s2, s3, s4, s5, s6, s7] ∧
      (AvrIspProgrammerSpiTransfer silent 0xA5 []).1
        = s0.toNat * 128 + s1.toNat * 64 + s2.toNat * 32 + s3.toNat * 16
          + s4.toNat * 8 + s5.toNat * 4 + s6.toNat * 2 + s7.toNat :=
  ⟨by decide, spiTransfer_result silent 0xA5 [] (by decide)⟩

theorem transferEvents_cons (target : Target) (tr : Trace) (b : Bool) (m : List Bool) :
    ∃ s, transferEvents target tr (b :: m)
      = bitRound b s ++ transferEvents target (tr ++ bitRound b s) m :=
  ⟨_, rfl⟩

theorem transferEvents_eight (target : Target) (tr : Trace) (b7 b6 b5 b4 b3 b2 b1 b0 : Bool) :
    ∃ (s0 s1 s2 s3 s4 s5 s6 s7 : Bool),
      transferEvents target tr [b7, b6, b5, b4, b3, b2, b1, b0]
        = List.flatten [bitRound b7 s0, bitRound b6 s1, bitRound b5 s2, bitRound b4 s3,
            bitRound b3 s4, bitRound b2 s5, bitRound b1 s6, bitRound b0 s7] := by
  obtain ⟨s0, h0⟩ := transferEvents_cons target tr b7 [b6, b5, b4, b3, b2, b1, b0]
  obtain ⟨s1, h1⟩ := transferEvents_cons target (tr ++ bitRound b7 s0) b6 [b5, b4, b3, b2, b1, b0]
  obtain ⟨s2, h2⟩ := transferEvents_cons target (tr ++ bitRound b7 s0 ++ bitRound b6 s1) b5
    [b4, b3, b2, b1, b0]
  obtain ⟨s3, h3⟩ := transferEvents_cons target
    (tr ++ bitRound b7 s0 ++ bitRound b6 s1 ++ bitRound b5 s2) b4 [b3, b2, b1, b0]
  obtain ⟨s4, h4⟩ := transferEvents_cons target
    (tr ++ bitRound b7 s0 ++ bitRound b6 s1 ++ bitRound b5 s2 ++ bitRound b4 s3) b3 [b2, b1, b0]
  obtain ⟨s5, h5⟩ := transferEvents_cons target
    (tr ++ bitRound b7 s0 ++ bitRound b6 s1 ++ bitRound b5 s2 ++ bitRound b4 s3
      ++ bitRound b3 s4) b2 [b1, b0]
  obtain ⟨s6, h6⟩ := transferEvents_cons target
    (tr ++ bitRound b7 s0 ++ bitRound b6 s1 ++ bitRound b5 s2 ++ bitRound b4 s3
      ++ bitRound b3 s4 ++ bitRound b2 s5) b1 [b0]
  obtain ⟨s7, h7⟩ := transferEvents_cons target
    (tr ++ bitRound b7 s0 ++ bitRound b6 s1 ++ bitRound b5 s2 ++ bitRound b4 s3
      ++ bitRound b3 s4 ++ bitRound b2 s5 ++ bitRound b1 s6) b0 []
  refine ⟨s0, s1, s2, s3, s4, s5, s6, s7, ?_⟩
  rw [h0, h1, h2, h3, h4, h5, h6, h7]
  simp [transferEvents, List.flatten]

/-- C5. A transfer consists of exactly eight rounds.  Round `i` drives
data-out to bit `7 - i` of the byte `v` that was passed in, then samples
data-in, then sets the clock high, waits, sets the clock low and waits.  The
levels driven are the bits of `v` whatever the samples are. -/
theorem spiTransfer_rounds (target : Target) (v : Nat) (tr : Trace) (hv : v < 256) :
    ∃ (s0 s1 s2 s3 s4 s5 s6 s7 : Bool),
      (AvrIspProgrammerSpiTransfer target v tr).2
        = tr ++ List.flatten
            [bitRound (v.testBit 7) s0, bitRound (v.testBit 6) s1,
             bitRound (v.testBit 5) s2, bitRound (v.testBit 4) s3,
             bitRound (v.testBit 3) s4, bitRound (v.testBit 2) s5,
             bitRound (v.testBit 1) s6, bitRound (v.testBit 0) s7] ∧
      mosiBits ((AvrIspProgrammerSpiTransfer target v tr).2.drop tr.length)
        = [v.testBit 7, v.testBit 6, v.testBit 5, v.testBit 4,
           v.testBit 3, v.testBit 2, v.testBit 1, v.testBit 0] ∧
      ∀ b s, bitRound b s
        = [if b then Event.MosiHigh else Event.MosiLow, Event.Miso s,
           Event.SckHigh, Event.DelayUs 5, Event.SckLow, Event.DelayUs 5] := by
  rw [spiTransfer_spec target v tr hv]
  obtain ⟨s0, s1, s2, s3, s4, s5, s6, s7, h⟩ := transferEvents_eight target tr
    (v.testBit 7) (v.testBit 6) (v.testBit 5) (v.testBit 4)
    (v.testBit 3) (v.testBit 2) (v.testBit 1) (v.testBit 0)
  refine ⟨s0, s1, s2, s3, s4, s5, s6, s7, ?_, ?_, fun b s => rfl⟩
  · show tr ++ transferEvents target tr (bitsMSB 8 v) = _
    rw [← h]; rfl
  · simp only [List.drop_left, mosiBits_transferEvents]
    rfl

/-- Witness of C5 at the byte `0xA5`, sent over the loopback link. -/
theorem spiTransfer_rounds_witness :
    (0xA5 : Nat) < 256 ∧
    ∃ (s0 s1 s2 s3 s4 s5 s6 s7 : Bool),
      (AvrIspProgrammerSpiTransfer loopback 0xA5 []).2
        = [] ++ List.flatten
            [bitRound (Nat.testBit 0xA5 7) s0, bitRound (Nat.testBit 0xA5 6) s1,
             bitRound (Nat.testBit 0xA5 5) s2, bitRound (Nat.testBit 0xA5 4) s3,
             bitRound (Nat.testBit 0xA5 3) s4, bitRound (Nat.testBit 0xA5 2) s5,
             bitRound (Nat.testBit 0xA5 1) s6, bitRound (Nat.testBit 0xA5 0) s7] ∧
      mosiBits ((AvrIspProgrammerSpiTransfer loopback 0xA5 []).2.drop ([] : Trace).length)
        = [Nat.testBit 0xA5 7, Nat.testBit 0xA5 6, Nat.testBit 0xA5 5, Nat.testBit 0xA5 4,
           Nat.testBit 0xA5 3, Nat.testBit 0xA5 2, Nat.testBit 0xA5 1, Nat.testBit 0xA5 0] ∧
      ∀ b s, bitRound b s
        = [if b then Event.MosiHigh else Event.MosiLow, Event.Miso s,
           Event.SckHigh, Event.DelayUs 5, Event.SckLow, Event.DelayUs 5] :=
  ⟨by decide, spiTransfer_rounds loopback 0xA5 [] (by decide)⟩

/-! ## Instruction frames -/

theorem bytesOfBits_append_eight (m rest : List Bool) (h : m.length = 8) :
    bytesOfBits (m ++ rest) = bitsVal m :: bytesOfBits rest := by
  obtain ⟨a0, a1, a2, a3, a4, a5, a6, a7, rfl⟩ := eq_of_length_eight m h
  simp [bytesOfBits]

theorem bytesOfBits_bitsMSB (v : Nat) (rest : List Bool) (hv : v < 256) :
    bytesOfBits (bitsMSB 8 v ++ rest) = v :: bytesOfBits rest := by
  rw [bytesOfBits_append_eight _ _ (bitsMSB_length 8 v), byte_eq_bitsVal v hv]

theorem bytesOfBits_append (n : Nat) :
    ∀ a b : List Bool, a.length = 8 * n →
      bytesOfBits (a ++ b) = bytesOfBits a ++ bytesOfBits b := by
  induction n with
  | zero =>
    intro a b h
    have : a = [] := List.length_eq_zero.mp (by omega)
    subst this; rfl
  | succ n ih =>
    intro a b h
    have h8 : (a.take 8).length = 8 := by rw [List.length_take]; omega
    have hd : (a.drop 8).length = 8 * n := by rw [List.length_drop]; omega
    have ha : a = a.take 8 ++ a.drop 8 := (List.take_append_drop 8 a).symm
    rw [ha, List.append_assoc, bytesOfBits_append_eight _ _ h8,
      bytesOfBits_append_eight _ _ h8, ih _ _ hd]
    rfl

/-- The events of one byte transfer, summarised. -/
theorem spiTransfer_events (target : Target) (v : Nat) (tr : Trace) (hv : v < 256) :
    ∃ evs, AvrIspProgrammerSpiTransfer target v tr = (bitsVal (misoSamples evs), tr ++ evs) ∧
      mosiBits evs = bitsMSB 8 v ∧ (misoSamples evs).length = 8 ∧ resetLine evs = [] := by
  refine ⟨transferEvents target tr (bitsMSB 8 v), spiTransfer_spec target v tr hv,
    mosiBits_transferEvents _ _ _, ?_, resetLine_transferEvents _ _ _⟩
  rw [misoSamples_transferEvents_length, bitsMSB_length]

/-- Four byte transfers in a row make one frame; the value of the last
transfer is the fourth byte received. -/
theorem four_transfers (target : Target) (b1 b2 b3 b4 : Nat) (tr : Trace)
    (h1 : b1 < 256) (h2 : b2 < 256) (h3 : b3 < 256) (h4 : b4 < 256) :
    ∃ evs r1 r2,
      (AvrIspProgrammerSpiTransfer target b4
        (AvrIspProgrammerSpiTransfer target b3
          (AvrIspProgrammerSpiTransfer target b2
            (AvrIspProgrammerSpiTransfer target b1 tr).2).2).2).2 = tr ++ evs ∧
      IsFrame [b1, b2, b3, b4] evs ∧
      recvBytes evs = [r1, r2,
        (AvrIspProgrammerSpiTransfer target b3
          (AvrIspProgrammerSpiTransfer target b2
            (AvrIspProgrammerSpiTransfer target b1 tr).2).2).1,
        (AvrIspProgrammerSpiTransfer target b4
          (AvrIspProgrammerSpiTransfer target b3
            (AvrIspProgrammerSpiTransfer target b2
              (AvrIspProgrammerSpiTransfer target b1 tr).2).2).2).1] := by
  obtain ⟨e1, he1, m1, l1, z1⟩ := spiTransfer_events target b1 tr h1
  rw [he1]
  obtain ⟨e2, he2, m2, l2, z2⟩ := spiTransfer_events target b2 (tr ++ e1) h2
  rw [he2]
  obtain ⟨e3, he3, m3, l3, z3⟩ := spiTransfer_events target b3 (tr ++ e1 ++ e2) h3
  rw [he3]
  obtain ⟨e4, he4, m4, l4, z4⟩ := spiTransfer_events target b4 (tr ++ e1 ++ e2 ++ e3) h4
  rw [he4]
  refine ⟨e1 ++ e2 ++ e3 ++ e4, bitsVal (misoSamples e1), bitsVal (misoSamples e2), ?_,
    ⟨?_, ?_, ?_, ?_⟩, ?_⟩
  · simp [List.append_assoc]
  · simp only [sentBytes, mosiBits_append, m1, m2, m3, m4, List.append_assoc]
    rw [bytesOfBits_bitsMSB _ _ h1, bytesOfBits_bitsMSB _ _ h2, bytesOfBits_bitsMSB _ _ h3]
    have := bytesOfBits_bitsMSB b4 [] h4
    rw [List.append_nil] at this
    rw [this]; rfl
  · simp [mosiBits_append, m1, m2, m3, m4, bitsMSB_length]
  · simp [misoSamples_append, l1, l2, l3, l4]
  · simp [resetLine_append, z1, z2, z3, z4]
  · simp only [recvBytes, misoSamples_append, List.append_assoc]
    rw [bytesOfBits_append_eight _ _ l1, bytesOfBits_append_eight _ _ l2,
      bytesOfBits_append_eight _ _ l3]
    have := bytesOfBits_append_eight (misoSamples e4) [] l4
    rw [List.append_nil] at this
    rw [this]; rfl

/-- What `AvrIspProgrammerSerialProgrammingInstruction` does. -/
theorem instruction_spec (target : Target) (b1 b2 b3 b4 : Nat) (tr : Trace)
    (h1 : b1 < 256) (h2 : b2 < 256) (h3 : b3 < 256) (h4 : b4 < 256) :
    ∃ evs r1 r2 r3,
      (AvrIspProgrammerSerialProgrammingInstruction target b1 b2 b3 b4 tr).2 = tr ++ evs ∧
      IsFrame [b1, b2, b3, b4] evs ∧
      recvBytes evs
        = [r1, r2, r3, (AvrIspProgrammerSerialProgrammingInstruction target b1 b2 b3 b4 tr).1] := by
  obtain ⟨evs, r1, r2, h, hf, hr⟩ := four_transfers target b1 b2 b3 b4 tr h1 h2 h3 h4
  exact ⟨evs, r1, r2, _, h, hf, hr⟩

/-- C6. An instruction is exactly four byte transfers, of `byte1 .. byte4`
in that order, and its value is the byte received during the fourth
transfer, whatever was received during the first three. -/
theorem serialProgrammingInstruction_frame (target : Target) (byte1 byte2 byte3 byte4 : Nat)
    (tr : Trace) (h1 : byte1 < 256) (h2 : byte2 < 256) (h3 : byte3 < 256) (h4 : byte4 < 256) :
    ∃ (evs : Trace) (r1 r2 r3 : Nat),
      (AvrIspProgrammerSerialProgrammingInstruction target byte1 byte2 byte3 byte4 tr).2
        = tr ++ evs ∧
      (mosiBits evs).length = 4 * 8 ∧ (misoSamples evs).length = 4 * 8 ∧
      sentBytes evs = [byte1, byte2, byte3, byte4] ∧
      recvBytes evs = [r1, r2, r3,
        (AvrIspProgrammerSerialProgrammingInstruction target byte1 byte2 byte3 byte4 tr).1] := by
  obtain ⟨evs, r1, r2, r3, h, ⟨hs, hm, hi, _⟩, hr⟩ :=
    instruction_spec target byte1 byte2 byte3 byte4 tr h1 h2 h3 h4
  exact ⟨evs, r1, r2, r3, h, hm, hi, hs, hr⟩

/-- Witness of C6: the Programming-Enable bytes sent over the loopback
link. -/
theorem serialProgrammingInstruction_frame_witness :
    ∃ (evs : Trace) (r1 r2 r3 : Nat),
      (AvrIspProgrammerSerialProgrammingInstruction loopback 0xAC 0x53 0x00 0x00 []).2
        = [] ++ evs ∧
      (mosiBits evs).length = 4 * 8 ∧ (misoSamples evs).length = 4 * 8 ∧
      sentBytes evs = [0xAC, 0x53, 0x00, 0x00] ∧
      recvBytes evs = [r1, r2, r3,
        (AvrIspProgrammerSerialProgrammingInstruction loopback 0xAC 0x53 0x00 0x00 []).1] :=
  serialProgrammingInstruction_frame loopback 0xAC 0x53 0x00 0x00 []
    (by decide) (by decide) (by decide) (by decide)

/-! ## Program memory -/

theorem and_one_ne_zero (a : Nat) : (a &&& 0x01 ≠ 0) ↔ a % 2 = 1 := by
  rw [Nat.and_one_is_mod]; omega

theorem and_ff (w : Nat) : w &&& 0xFF = w % 256 :=
  Nat.and_pow_two_sub_one_eq_mod w 8

theorem shiftRight_one (a : Nat) : a >>> 1 = a / 2 := by
  rw [Nat.shiftRight_eq_div_pow]

theorem shiftRight_eight (a : Nat) : a >>> 8 = a / 256 := by
  rw [Nat.shiftRight_eq_div_pow]

/-- The frame of `AvrIspProgrammerLoadProgramMemoryPage`. -/
theorem loadProgramMemoryPage_spec (target : Target) (address data : Nat) (tr : Trace)
    (hd : data < 256) :
    ∃ evs, AvrIspProgrammerLoadProgramMemoryPage target address data tr = tr ++ evs ∧
      IsFrame [if address % 2 = 1 then 0x48 else 0x40, 0x00, (address >>> 1) % 256, data] evs := by
  have hw : (address >>> 1) % 256 < 256 := Nat.mod_lt _ (by norm_num)
  unfold AvrIspProgrammerLoadProgramMemoryPage
  by_cases hodd : address % 2 = 1
  · obtain ⟨evs, _, _, _, h, hf, _⟩ := instruction_spec target 0x48 0x00
      ((address >>> 1) % 256) data tr (by norm_num) (by norm_num) hw hd
    simp only [if_pos ((and_one_ne_zero address).2 hodd), if_pos hodd]
    exact ⟨evs, h, hf⟩
  · obtain ⟨evs, _, _, _, h, hf, _⟩ := instruction_spec target 0x40 0x00
      ((address >>> 1) % 256) data tr (by norm_num) (by norm_num) hw hd
    simp only [if_neg (fun hc => hodd ((and_one_ne_zero address).1 hc)), if_neg hodd]
    exact ⟨evs, h, hf⟩

/-- C7, as amended. The single frame sent by
`AvrIspProgrammerLoadProgramMemoryPage` has as its third byte the low eight
bits of the word address, `(address >> 1) mod 256`, which is the word address
itself exactly when `address < 512`; its fourth byte is `data`. -/
theorem loadProgramMemoryPage_wordAddress (target : Target) (address data : Nat) (tr : Trace)
    (hd : data < 256) :
    ∃ (evs : Trace) (b1 b2 : Nat),
      AvrIspProgrammerLoadProgramMemoryPage target address data tr = tr ++ evs ∧
      (mosiBits evs).length = 4 * 8 ∧
      sentBytes evs = [b1, b2, (address >>> 1) % 256, data] ∧
      ((address >>> 1) % 256 = address >>> 1 ↔ address < 512) := by
  obtain ⟨evs, h, hs, hm, _, _⟩ := loadProgramMemoryPage_spec target address data tr hd
  refine ⟨evs, _, _, h, hm, hs, ?_⟩
  rw [shiftRight_one]
  omega

/-- Witness of C7 (amended) at address `0x0203`, data `0x5A`. -/
theorem loadProgramMemoryPage_wordAddress_witness :
    ∃ (evs : Trace) (b1 b2 : Nat),
      AvrIspProgrammerLoadProgramMemoryPage silent 0x0203 0x5A [] = [] ++ evs ∧
      (mosiBits evs).length = 4 * 8 ∧
      sentBytes evs = [b1, b2, (0x0203 >>> 1) % 256, 0x5A] ∧
      ((0x0203 >>> 1) % 256 = 0x0203 >>> 1 ↔ 0x0203 < 512) :=
  loadProgramMemoryPage_wordAddress silent 0x0203 0x5A [] (by decide)

set_option maxRecDepth 100000 in
/-- Counterexample to C7 as stated: at byte address `0x0200` the word address
is `0x100`, and the third byte of the frame is `0x00`, not `0x100`. -/
theorem loadProgramMemoryPage_thirdByte_counterexample :
    (sentBytes (AvrIspProgrammerLoadProgramMemoryPage silent 0x0200 0x00 []))[2]? = some 0x00 ∧
    ¬ ((sentBytes (AvrIspProgrammerLoadProgramMemoryPage silent 0x0200 0x00 []))[2]?
        = some (0x0200 >>> 1)) := by
  decide

/-- C8. `AvrIspProgrammerLoadProgramMemoryPage` sends exactly one frame (four
bytes, hence no ready-poll); its first byte is `0x48` if and only if the
address is odd and `0x40` if and only if the address is even, and its second
byte is `0x00`. -/
theorem loadProgramMemoryPage_opcode (target : Target) (address data : Nat) (tr : Trace)
    (hd : data < 256) :
    ∃ (evs : Trace) (op b3 b4 : Nat),
      AvrIspProgrammerLoadProgramMemoryPage target address data tr = tr ++ evs ∧
      (mosiBits evs).length = 4 * 8 ∧
      sentBytes evs = [op, 0x00, b3, b4] ∧
      (op = 0x48 ↔ address % 2 = 1) ∧ (op = 0x40 ↔ address % 2 = 0) := by
  obtain ⟨evs, h, hs, hm, _, _⟩ := loadProgramMemoryPage_spec target address data tr hd
  refine ⟨evs, _, _, _, h, hm, hs, ?_, ?_⟩
  · by_cases hodd : address % 2 = 1 <;> simp [hodd]
  · by_cases hodd : address % 2 = 1
    · simp [hodd]
    · simp [hodd]; omega

/-- Witness of C8 at the odd address `0x0203`. -/
theorem loadProgramMemoryPage_opcode_witness :
    ∃ (evs : Trace) (op b3 b4 : Nat),
      AvrIspProgrammerLoadProgramMemoryPage silent 0x0203 0x5A [] = [] ++ evs ∧
      (mosiBits evs).length = 4 * 8 ∧
      sentBytes evs = [op, 0x00, b3, b4] ∧
      (op = 0x48 ↔ 0x0203 % 2 = 1) ∧ (op = 0x40 ↔ 0x0203 % 2 = 0) :=
  loadProgramMemoryPage_opcode silent 0x0203 0x5A [] (by decide)

/-- The frame and the value of `AvrIspProgrammerReadProgramMemory`. -/
theorem readProgramMemory_spec (target : Target) (address : Nat) (tr : Trace)
    (ha : address < 65536) :
    ∃ evs r1 r2 r3, (AvrIspProgrammerReadProgramMemory target address tr).2 = tr ++ evs ∧
      IsFrame [if address % 2 = 1 then 0x28 else 0x20, (address >>> 1) >>> 8,
        (address >>> 1) &&& 0xFF, 0x00] evs ∧
      recvBytes evs = [r1, r2, r3, (AvrIspProgrammerReadProgramMemory target address tr).1] := by
  have hw : (address >>> 1) % 65536 = address >>> 1 := by
    rw [shiftRight_one]; omega
  have hl : ((address >>> 1) &&& 0xFF) % 256 = (address >>> 1) &&& 0xFF := by
    rw [and_ff]; omega
  have hm : ((address >>> 1) >>> 8) % 256 = (address >>> 1) >>> 8 := by
    rw [shiftRight_eight, shiftRight_one]; omega
  have hl2 : (address >>> 1) &&& 0xFF < 256 := by rw [and_ff]; omega
  have hm2 : (address >>> 1) >>> 8 < 256 := by
    rw [shiftRight_eight, shiftRight_one]; omega
  unfold AvrIspProgrammerReadProgramMemory
  simp only [hw, hl, hm]
  by_cases hodd : address % 2 = 1
  · simp only [if_pos ((and_one_ne_zero address).2 hodd), if_pos hodd]
    exact instruction_spec target 0x28 _ _ 0x00 tr (by norm_num) hm2 hl2 (by norm_num)
  · simp only [if_neg (fun hc => hodd ((and_one_ne_zero address).1 hc)), if_neg hodd]
    exact instruction_spec target 0x20 _ _ 0x00 tr (by norm_num) hm2 hl2 (by norm_num)

/-- C9. For a 16-bit byte address, `AvrIspProgrammerReadProgramMemory` sends
exactly one frame `(op, MSB, LSB, 0x00)` (four bytes, hence no ready-poll),
with `op = 0x28` iff the address is odd and `op = 0x20` iff it is even,
`MSB = (address >> 1) >> 8` and `LSB = (address >> 1) & 0xFF`, so that
`256 * MSB + LSB` is the word address, and returns the byte received during
the fourth transfer. -/
theorem readProgramMemory_frame (target : Target) (address : Nat) (tr : Trace)
    (ha : address < 65536) :
    ∃ (evs : Trace) (op r1 r2 r3 : Nat),
      (AvrIspProgrammerReadProgramMemory target address tr).2 = tr ++ evs ∧
      (mosiBits evs).length = 4 * 8 ∧
      sentBytes evs = [op, (address >>> 1) >>> 8, (address >>> 1) &&& 0xFF, 0x00] ∧
      (op = 0x28 ↔ address % 2 = 1) ∧ (op = 0x20 ↔ address % 2 = 0) ∧
      256 * ((address >>> 1) >>> 8) + ((address >>> 1) &&& 0xFF) = address >>> 1 ∧
      recvBytes evs = [r1, r2, r3, (AvrIspProgrammerReadProgramMemory target address tr).1] := by
  obtain ⟨evs, r1, r2, r3, h, ⟨hs, hm, _, _⟩, hr⟩ := readProgramMemory_spec target address tr ha
  refine ⟨evs, _, r1, r2, r3, h, hm, hs, ?_, ?_, ?_, hr⟩
  · by_cases hodd : address % 2 = 1 <;> simp [hodd]
  · by_cases hodd : address % 2 = 1
    · simp [hodd]
    · simp [hodd]; omega
  · rw [and_ff, shiftRight_eight]; omega

/-- Witness of C9 at the highest odd address `0xFFFF`, read over the loopback
link. -/
theorem readProgramMemory_frame_witness :
    ∃ (evs : Trace) (op r1 r2 r3 : Nat),
      (AvrIspProgrammerReadProgramMemory loopback 0xFFFF []).2 = [] ++ evs ∧
      (mosiBits evs).length = 4 * 8 ∧
      sentBytes evs = [op, (0xFFFF >>> 1) >>> 8, (0xFFFF >>> 1) &&& 0xFF, 0x00] ∧
      (op = 0x28 ↔ 0xFFFF % 2 = 1) ∧ (op = 0x20 ↔ 0xFFFF % 2 = 0) ∧
      256 * ((0xFFFF >>> 1) >>> 8) + ((0xFFFF >>> 1) &&& 0xFF) = 0xFFFF >>> 1 ∧
      recvBytes evs = [r1, r2, r3, (AvrIspProgrammerReadProgramMemory loopback 0xFFFF []).1] :=
  readProgramMemory_frame loopback 0xFFFF [] (by decide)

/-! ## Entering programming mode -/

theorem enableAttempt_spec (target : Target) (tr : Trace) :
    ∃ frame r1 r2 r4,
      (enableAttempt target tr).2 = tr ++ (attemptHeader ++ frame) ∧
      IsFrame programmingEnable frame ∧
      recvBytes frame = [r1, r2, (enableAttempt target tr).1, r4] := by
  obtain ⟨evs, r1, r2, h, hf, hr⟩ := four_transfers target 0xAC 0x53 0x00 0x00
    (tr ++ attemptHeader) (by norm_num) (by norm_num) (by norm_num) (by norm_num)
  have htr : AvrIspProgrammerDelayUs 20000 (AvrIspProgrammerIoResetLow
      (AvrIspProgrammerDelay2CyclesTargetCPU (AvrIspProgrammerIoResetHigh
        (AvrIspProgrammerIoSckLow tr)))) = tr ++ attemptHeader := by
    simp [AvrIspProgrammerDelayUs, AvrIspProgrammerIoResetLow,
      AvrIspProgrammerDelay2CyclesTargetCPU, AvrIspProgrammerIoResetHigh,
      AvrIspProgrammerIoSckLow, attemptHeader]
  have hunf : enableAttempt target tr
      = ((AvrIspProgrammerSpiTransfer target 0x00
            (AvrIspProgrammerSpiTransfer target 0x53
              (AvrIspProgrammerSpiTransfer target 0xAC (tr ++ attemptHeader)).2).2).1,
         (AvrIspProgrammerSpiTransfer target 0x00
            (AvrIspProgrammerSpiTransfer target 0x00
              (AvrIspProgrammerSpiTransfer target 0x53
                (AvrIspProgrammerSpiTransfer target 0xAC (tr ++ attemptHeader)).2).2).2).2) := by
    rw [← htr]; rfl
  rw [hunf]
  exact ⟨evs, r1, r2, _, by rw [h, List.append_assoc], hf, hr⟩

/-- When the first `k` echoes differ from `0x53` and the next one is `0x53`,
the retry loop returns after `k + 1` attempts. -/
theorem enableLoop_success (target : Target) :
    ∀ k n tr, k < n →
      (∀ j, j < k → attemptEcho target j tr ≠ 0x53) →
      attemptEcho target k tr = 0x53 →
      enableLoop target n tr = (true, afterAttempts target (k + 1) tr) := by
  intro k
  induction k with
  | zero =>
    intro n tr hn _ hk
    obtain ⟨m, rfl⟩ : ∃ m, n = m + 1 := ⟨n - 1, by omega⟩
    have hk2 : (enableAttempt target tr).1 = 0x53 := hk
    simp [enableLoop, hk2, afterAttempts]
  | succ k ih =>
    intro n tr hn hlt hk
    obtain ⟨m, rfl⟩ : ∃ m, n = m + 1 := ⟨n - 1, by omega⟩
    have h0 : (enableAttempt target tr).1 ≠ 0x53 := hlt 0 (by omega)
    have hrec := ih m (enableAttempt target tr).2 (by omega)
      (fun j hj => hlt (j + 1) (by omega)) hk
    rw [enableLoop]
    simp only [if_neg h0]
    rw [hrec]
    rfl

/-- When none of the first `n` echoes is `0x53`, the retry loop runs out
after `n` attempts. -/
theorem enableLoop_failure (target : Target) :
    ∀ n tr, (∀ j, j < n → attemptEcho target j tr ≠ 0x53) →
      enableLoop target n tr = (false, afterAttempts target n tr) := by
  intro n
  induction n with
  | zero => intro tr _; rfl
  | succ n ih =>
    intro tr hlt
    have h0 : (enableAttempt target tr).1 ≠ 0x53 := hlt 0 (by omega)
    rw [enableLoop]
    simp only [if_neg h0]
    rw [ih _ (fun j hj => hlt (j + 1) (by omega))]
    rfl

/-- The retry loop always ends: either by `return 1` after some number of
attempts between 1 and `n`, or by running out after exactly `n` attempts. -/
theorem enableLoop_cases (target : Target) :
    ∀ n tr, (∃ k, 1 ≤ k ∧ k ≤ n ∧ enableLoop target n tr = (true, afterAttempts target k tr)) ∨
      enableLoop target n tr = (false, afterAttempts target n tr) := by
  intro n
  induction n with
  | zero => intro tr; exact Or.inr rfl
  | succ n ih =>
    intro tr
    by_cases h0 : (enableAttempt target tr).1 = 0x53
    · refine Or.inl ⟨1, le_refl 1, by omega, ?_⟩
      rw [enableLoop]
      simp only [if_pos h0]
      rfl
    · rw [enableLoop]
      simp only [if_neg h0]
      rcases ih (enableAttempt target tr).2 with ⟨k, hk1, hk2, hk⟩ | hk
      · exact Or.inl ⟨k + 1, by omega, by omega, by rw [hk]; rfl⟩
      · exact Or.inr (by rw [hk]; rfl)

/-- The history after `k` attempts: `k` times the opening line actions
followed by a Programming-Enable frame. -/
theorem afterAttempts_spec (target : Target) :
    ∀ k tr, ∃ frames : List Trace, frames.length = k ∧
      afterAttempts target k tr
        = tr ++ List.flatten (frames.map (fun f => attemptHeader ++ f)) ∧
      ∀ f, f ∈ frames → IsFrame programmingEnable f := by
  intro k
  induction k with
  | zero => intro tr; exact ⟨[], rfl, by simp [afterAttempts], by simp⟩
  | succ k ih =>
    intro tr
    obtain ⟨frame, _, _, _, h, hf, _⟩ := enableAttempt_spec target tr
    obtain ⟨frames, hlen, hrest, hall⟩ := ih (enableAttempt target tr).2
    refine ⟨frame :: frames, by simp [hlen], ?_, ?_⟩
    · rw [afterAttempts, hrest, h]
      simp [List.append_assoc]
    · intro f hmem
      rcases List.mem_cons.mp hmem with rfl | hm
      · exact hf
      · exact hall f hm

theorem resetLine_attempts (frames : List Trace)
    (h : ∀ f, f ∈ frames → IsFrame programmingEnable f) :
    resetLine (List.flatten (frames.map (fun f => attemptHeader ++ f)))
      = List.flatten (List.replicate frames.length [Event.ResetHigh, Event.ResetLow]) := by
  induction frames with
  | nil => rfl
  | cons f frames ih =>
    have hf := (h f (List.mem_cons_self f frames)).2.2.2
    have ih2 := ih (fun g hg => h g (List.mem_cons_of_mem f hg))
    simp only [List.map_cons, List.flatten_cons, resetLine_append, hf, ih2, List.length_cons,
      List.replicate_succ, List.append_nil]
    rfl

theorem mosiBits_attempts (frames : List Trace)
    (h : ∀ f, f ∈ frames → IsFrame programmingEnable f) :
    (mosiBits (List.flatten (frames.map (fun f => attemptHeader ++ f)))).length
        = 8 * (4 * frames.length) ∧
      sentBytes (List.flatten (frames.map (fun f => attemptHeader ++ f)))
        = List.flatten (List.replicate frames.length programmingEnable) := by
  induction frames with
  | nil => exact ⟨rfl, rfl⟩
  | cons f frames ih =>
    obtain ⟨hs, hm, _, _⟩ := h f (List.mem_cons_self f frames)
    obtain ⟨ih1, ih2⟩ := ih (fun g hg => h g (List.mem_cons_of_mem f hg))
    have hhead : mosiBits attemptHeader = [] := rfl
    constructor
    · simp only [List.map_cons, List.flatten_cons, mosiBits_append, hhead, List.nil_append,
        List.length_append, hm, ih1, List.length_cons]
      omega
    · unfold sentBytes at *
      simp only [List.map_cons, List.flatten_cons, mosiBits_append, hhead, List.nil_append,
        List.length_cons, List.replicate_succ]
      rw [bytesOfBits_append 4 _ _ (by rw [hm]), hs, ih2]

theorem enableSerialProgramming_unfold (target : Target) (tr : Trace) :
    AvrIspProgrammerEnableSerialProgramming target tr
      = if (enableLoop target 16 (tr ++ [Event.IoInit])).1 = true
        then (1, (enableLoop target 16 (tr ++ [Event.IoInit])).2)
        else (0, (enableLoop target 16 (tr ++ [Event.IoInit])).2 ++ [Event.ResetHigh]) :=
  rfl

/-- C1. If the byte returned while the third Programming-Enable byte is
transferred differs from `0x53` in attempts `1 .. k-1` and is `0x53` in
attempt `k` (`1 ≤ k ≤ 16`), then `AvrIspProgrammerEnableSerialProgramming`
returns 1 and what it did on the lines is exactly `k` reset pulses and `k`
Programming-Enable frames, nothing more. -/
theorem enableSerialProgramming_success (target : Target) (tr : Trace) (k : Nat)
    (hk1 : 1 ≤ k) (hk16 : k ≤ 16)
    (hfail : ∀ j, 1 ≤ j → j < k →
      attemptEcho target (j - 1) (AvrIspProgrammerIoInit tr) ≠ 0x53)
    (hsucc : attemptEcho target (k - 1) (AvrIspProgrammerIoInit tr) = 0x53) :
    (AvrIspProgrammerEnableSerialProgramming target tr).1 = 1 ∧
    ∃ evs : Trace,
      (AvrIspProgrammerEnableSerialProgramming target tr).2 = tr ++ evs ∧
      resetLine evs = List.flatten (List.replicate k [Event.ResetHigh, Event.ResetLow]) ∧
      (mosiBits evs).length = 8 * (4 * k) ∧
      sentBytes evs = List.flatten (List.replicate k [0xAC, 0x53, 0x00, 0x00]) := by
  obtain ⟨m, rfl⟩ : ∃ m, k = m + 1 := ⟨k - 1, by omega⟩
  have hloop := enableLoop_success target m 16 (tr ++ [Event.IoInit]) (by omega)
    (fun j hj => hfail (j + 1) (by omega) (by omega)) hsucc
  obtain ⟨frames, hlen, htrace, hall⟩ := afterAttempts_spec target (m + 1) (tr ++ [Event.IoInit])
  obtain ⟨hbits, hsent⟩ := mosiBits_attempts frames hall
  have hreset := resetLine_attempts frames hall
  rw [hlen] at hbits hsent hreset
  rw [enableSerialProgramming_unfold, hloop]
  refine ⟨rfl, [Event.IoInit] ++ List.flatten (frames.map (fun f => attemptHeader ++ f)),
    ?_, ?_, ?_, ?_⟩
  · simp [htrace]
  · rw [resetLine_append, hreset]; rfl
  · rw [mosiBits_append, List.length_append, hbits]
    show 0 + _ = _
    omega
  · unfold sentBytes at *
    rw [mosiBits_append]
    exact hsent

set_option maxRecDepth 1000000 in
/-- Witness of C1 with `k = 2`: a target that answers `0x53` in the second
attempt only. -/
theorem enableSerialProgramming_success_witness :
    attemptEcho (syncAt 2) 0 (AvrIspProgrammerIoInit []) ≠ 0x53 ∧
    attemptEcho (syncAt 2) 1 (AvrIspProgrammerIoInit []) = 0x53 ∧
    (AvrIspProgrammerEnableSerialProgramming (syncAt 2) []).1 = 1 ∧
    ∃ evs : Trace,
      (AvrIspProgrammerEnableSerialProgramming (syncAt 2) []).2 = [] ++ evs ∧
      resetLine evs = List.flatten (List.replicate 2 [Event.ResetHigh, Event.ResetLow]) ∧
      (mosiBits evs).length = 8 * (4 * 2) ∧
      sentBytes evs = List.flatten (List.replicate 2 [0xAC, 0x53, 0x00, 0x00]) :=
  ⟨by decide, by decide,
    enableSerialProgramming_success (syncAt 2) [] 2 (by decide) (by decide)
      (fun j h1 h2 => by
        have hj : j = 1 := by omega
        subst hj
        decide)
      (by decide)⟩

/-- C2. If the byte returned while the third Programming-Enable byte is
transferred differs from `0x53` in each of the attempts `1 .. 16`, then
`AvrIspProgrammerEnableSerialProgramming` (a total function: it always
returns) returns 0 after exactly 16 reset pulses and 16 Programming-Enable
frames, and its last line action is the one of
`AvrIspProgrammerDisableSerialProgramming`, which drives reset high. -/
theorem enableSerialProgramming_failure (target : Target) (tr : Trace)
    (hfail : ∀ j, 1 ≤ j → j ≤ 16 →
      attemptEcho target (j - 1) (AvrIspProgrammerIoInit tr) ≠ 0x53) :
    (AvrIspProgrammerEnableSerialProgramming target tr).1 = 0 ∧
    ∃ evs : Trace,
      (AvrIspProgrammerEnableSerialProgramming target tr).2
        = AvrIspProgrammerDisableSerialProgramming (tr ++ evs) ∧
      (AvrIspProgrammerEnableSerialProgramming target tr).2
        = tr ++ evs ++ [Event.ResetHigh] ∧
      resetLine evs = List.flatten (List.replicate 16 [Event.ResetHigh, Event.ResetLow]) ∧
      (mosiBits evs).length = 8 * (4 * 16) ∧
      sentBytes evs = List.flatten (List.replicate 16 [0xAC, 0x53, 0x00, 0x00]) := by
  have hloop := enableLoop_failure target 16 (tr ++ [Event.IoInit])
    (fun j hj => hfail (j + 1) (by omega) (by omega))
  obtain ⟨frames, hlen, htrace, hall⟩ := afterAttempts_spec target 16 (tr ++ [Event.IoInit])
  obtain ⟨hbits, hsent⟩ := mosiBits_attempts frames hall
  have hreset := resetLine_attempts frames hall
  rw [hlen] at hbits hsent hreset
  rw [enableSerialProgramming_unfold, hloop]
  refine ⟨rfl, [Event.IoInit] ++ List.flatten (frames.map (fun f => attemptHeader ++ f)),
    ?_, ?_, ?_, ?_, ?_⟩
  · simp [htrace, AvrIspProgrammerDisableSerialProgramming, AvrIspProgrammerIoResetHigh]
  · simp [htrace]
  · rw [resetLine_append, hreset]; rfl
  · rw [mosiBits_append, List.length_append, hbits]
    show 0 + _ = _
    omega
  · unfold sentBytes at *
    rw [mosiBits_append]
    exact hsent

/-- Witness of C2: a target that keeps data-in low never answers `0x53`. -/
theorem enableSerialProgramming_failure_witness :
    (AvrIspProgrammerEnableSerialProgramming silent []).1 = 0 ∧
    ∃ evs : Trace,
      (AvrIspProgrammerEnableSerialProgramming silent []).2
        = AvrIspProgrammerDisableSerialProgramming ([] ++ evs) ∧
      (AvrIspProgrammerEnableSerialProgramming silent []).2
        = [] ++ evs ++ [Event.ResetHigh] ∧
      resetLine evs = List.flatten (List.replicate 16 [Event.ResetHigh, Event.ResetLow]) ∧
      (mosiBits evs).length = 8 * (4 * 16) ∧
      sentBytes evs = List.flatten (List.replicate 16 [0xAC, 0x53, 0x00, 0x00]) :=
  enableSerialProgramming_failure silent [] (by decide)

/-- C10, as amended. Every run of `AvrIspProgrammerEnableSerialProgramming`
is `IoInit`, then between 1 and 16 attempts, then (on failure only) the reset
high of `AvrIspProgrammerDisableSerialProgramming`.  Every attempt is: clock
low, reset HIGH (the level `AvrIspProgrammerDisableSerialProgramming` drives),
the two-cycle delay, reset LOW, a delay of 20000 microseconds, and then the
frame `0xAC 0x53 0x00 0x00`, during which the reset line is not touched: it
stays low, the opposite of the level driven on exit. -/
theorem enableSerialProgramming_attempts (target : Target) (tr : Trace) :
    ∃ frames : List Trace, 1 ≤ frames.length ∧ frames.length ≤ 16 ∧
      (AvrIspProgrammerEnableSerialProgramming target tr).2
        = tr ++ [Event.IoInit]
            ++ List.flatten (frames.map (fun f =>
                [Event.SckLow, Event.ResetHigh, Event.DelayUs 5, Event.ResetLow,
                  Event.DelayUs 20000] ++ f))
            ++ (if (AvrIspProgrammerEnableSerialProgramming target tr).1 = 1 then []
                else [Event.ResetHigh]) ∧
      (∀ f, f ∈ frames →
        sentBytes f = [0xAC, 0x53, 0x00, 0x00] ∧ (mosiBits f).length = 4 * 8 ∧
          resetLine f = []) ∧
      ∀ t, AvrIspProgrammerDisableSerialProgramming t = t ++ [Event.ResetHigh] := by
  rw [enableSerialProgramming_unfold]
  rcases enableLoop_cases target 16 (tr ++ [Event.IoInit]) with ⟨k, hk1, hk16, hk⟩ | hk
  · obtain ⟨frames, hlen, htrace, hall⟩ := afterAttempts_spec target k (tr ++ [Event.IoInit])
    refine ⟨frames, by omega, by omega, ?_,
      fun f hf => ⟨(hall f hf).1, (hall f hf).2.1, (hall f hf).2.2.2⟩, fun t => rfl⟩
    rw [hk]
    simp [htrace, attemptHeader]
  · obtain ⟨frames, hlen, htrace, hall⟩ := afterAttempts_spec target 16 (tr ++ [Event.IoInit])
    refine ⟨frames, by omega, by omega, ?_,
      fun f hf => ⟨(hall f hf).1, (hall f hf).2.1, (hall f hf).2.2.2⟩, fun t => rfl⟩
    rw [hk]
    simp [htrace, attemptHeader]

set_option maxRecDepth 1000000 in
/-- Counterexample to C10 as stated, on a target that answers `0x53` in the
first attempt: the first action on the reset line is reset high, the level
that `AvrIspProgrammerDisableSerialProgramming` drives, and when the first
Programming-Enable bit is driven the reset line has last been driven low,
which is not that level. -/
theorem enableSerialProgramming_reset_counterexample :
    (AvrIspProgrammerEnableSerialProgramming (syncAt 1) []).2.take 7
      = [Event.IoInit, Event.SckLow, Event.ResetHigh, Event.DelayUs 5, Event.ResetLow,
          Event.DelayUs 20000, Event.MosiHigh] ∧
    AvrIspProgrammerDisableSerialProgramming [] = [Event.ResetHigh] ∧
    ¬ ((resetLine ((AvrIspProgrammerEnableSerialProgramming (syncAt 1) []).2.take 6)).getLast?
        = (AvrIspProgrammerDisableSerialProgramming []).getLast?) := by
  decide

/-! ## Exchanges -/

theorem bytesOfBits_length (n : Nat) :
    ∀ a : List Bool, a.length = 8 * n → (bytesOfBits a).length = n := by
  induction n with
  | zero =>
    intro a h
    have : a = [] := List.length_eq_zero.mp (by omega)
    subst this; rfl
  | succ n ih =>
    intro a h
    have h8 : (a.take 8).length = 8 := by rw [List.length_take]; omega
    have hd : (a.drop 8).length = 8 * n := by rw [List.length_drop]; omega
    have ha : a = a.take 8 ++ a.drop 8 := (List.take_append_drop 8 a).symm
    rw [ha, bytesOfBits_append_eight _ _ h8, List.length_cons, ih _ hd]

theorem eq_of_length_four {α : Type} (s : List α) (h : s.length = 4) :
    ∃ a0 a1 a2 a3, s = [a0, a1, a2, a3] := by
  match s, h with
  | [a0, a1, a2, a3], _ => exact ⟨a0, a1, a2, a3, rfl⟩

theorem framesOf_append (n : Nat) :
    ∀ a b : List Nat, a.length = 4 * n → framesOf (a ++ b) = framesOf a ++ framesOf b := by
  induction n with
  | zero =>
    intro a b h
    have : a = [] := List.length_eq_zero.mp (by omega)
    subst this; rfl
  | succ n ih =>
    intro a b h
    have h4 : (a.take 4).length = 4 := by rw [List.length_take]; omega
    have hd : (a.drop 4).length = 4 * n := by rw [List.length_drop]; omega
    obtain ⟨a0, a1, a2, a3, h0⟩ := eq_of_length_four _ h4
    have ha : a = a0 :: a1 :: a2 :: a3 :: a.drop 4 := by
      have := (List.take_append_drop 4 a).symm
      rw [h0] at this
      exact this
    generalize a.drop 4 = d at hd ha
    subst ha
    show framesOf (a0 :: a1 :: a2 :: a3 :: (d ++ b)) = framesOf (a0 :: a1 :: a2 :: a3 :: d) ++ framesOf b
    simp only [framesOf]
    rw [ih _ _ hd]
    rfl

theorem fourthOf_append (n : Nat) :
    ∀ a b : List Nat, a.length = 4 * n → fourthOf (a ++ b) = fourthOf a ++ fourthOf b := by
  induction n with
  | zero =>
    intro a b h
    have : a = [] := List.length_eq_zero.mp (by omega)
    subst this; rfl
  | succ n ih =>
    intro a b h
    have h4 : (a.take 4).length = 4 := by rw [List.length_take]; omega
    have hd : (a.drop 4).length = 4 * n := by rw [List.length_drop]; omega
    obtain ⟨a0, a1, a2, a3, h0⟩ := eq_of_length_four _ h4
    have ha : a = a0 :: a1 :: a2 :: a3 :: a.drop 4 := by
      have := (List.take_append_drop 4 a).symm
      rw [h0] at this
      exact this
    generalize a.drop 4 = d at hd ha
    subst ha
    show fourthOf (a0 :: a1 :: a2 :: a3 :: (d ++ b)) = fourthOf (a0 :: a1 :: a2 :: a3 :: d) ++ fourthOf b
    simp only [fourthOf]
    rw [ih _ _ hd]
    rfl

theorem wire_nil : Wire [] [] := by
  unfold Wire; decide

theorem wire_append (a b : Trace) (xs ys : List (List Nat × Nat))
    (ha : Wire a xs) (hb : Wire b ys) : Wire (a ++ b) (xs ++ ys) := by
  obtain ⟨a1, a2, a3, a4, a5⟩ := ha
  obtain ⟨b1, b2, b3, b4, b5⟩ := hb
  unfold sentFrames sentBytes at a1 b1
  unfold responses recvBytes at a2 b2
  refine ⟨?_, ?_, ?_, ?_, ?_⟩
  · unfold sentFrames sentBytes
    rw [mosiBits_append, bytesOfBits_append _ _ _ a3,
      framesOf_append xs.length _ _ (bytesOfBits_length _ _ a3), a1, b1, List.map_append]
  · unfold responses recvBytes
    rw [misoSamples_append, bytesOfBits_append _ _ _ a4,
      fourthOf_append xs.length _ _ (bytesOfBits_length _ _ a4), a2, b2, List.map_append]
  · rw [mosiBits_append, List.length_append, a3, b3, List.length_append]; omega
  · rw [misoSamples_append, List.length_append, a4, b4, List.length_append]; omega
  · rw [resetLine_append, a5, b5]; rfl

theorem wire_frame (bytes : List Nat) (evs : Trace) (r1 r2 r3 r : Nat)
    (hf : IsFrame bytes evs) (hr : recvBytes evs = [r1, r2, r3, r]) (hb : bytes.length = 4) :
    Wire evs [(bytes, r)] := by
  obtain ⟨h1, h2, h3, h4⟩ := hf
  obtain ⟨b1, b2, b3, b4, rfl⟩ := eq_of_length_four bytes hb
  refine ⟨?_, ?_, h2, h3, h4⟩
  · unfold sentFrames; rw [h1]; rfl
  · unfold responses; rw [hr]; rfl

theorem count_delay_transferEvents (target : Target) (m : List Bool) :
    ∀ tr, (transferEvents target tr m).count (Event.DelayUs 1000) = 0 := by
  induction m with
  | nil => intro tr; rfl
  | cons b m ih =>
    intro tr
    simp only [transferEvents, List.count_append, ih]
    cases b <;> rfl

theorem count_delay_spiTransfer (target : Target) (v : Nat) (tr : Trace) (hv : v < 256) :
    (AvrIspProgrammerSpiTransfer target v tr).2.count (Event.DelayUs 1000)
      = tr.count (Event.DelayUs 1000) := by
  rw [spiTransfer_spec target v tr hv]
  show (tr ++ transferEvents target tr (bitsMSB 8 v)).count (Event.DelayUs 1000) = _
  rw [List.count_append, count_delay_transferEvents]
  rfl

theorem count_delay_instruction (target : Target) (b1 b2 b3 b4 : Nat) (tr : Trace)
    (h1 : b1 < 256) (h2 : b2 < 256) (h3 : b3 < 256) (h4 : b4 < 256) :
    (AvrIspProgrammerSerialProgrammingInstruction target b1 b2 b3 b4 tr).2.count
        (Event.DelayUs 1000) = tr.count (Event.DelayUs 1000) := by
  unfold AvrIspProgrammerSerialProgrammingInstruction
  simp only []
  rw [count_delay_spiTransfer _ _ _ h4, count_delay_spiTransfer _ _ _ h3,
    count_delay_spiTransfer _ _ _ h2, count_delay_spiTransfer _ _ _ h1]

/-- What `AvrIspProgrammerSerialProgrammingInstruction` puts on the wire: one
frame, whose response is the value returned, and no delay of 1000
microseconds. -/
theorem instruction_wire (target : Target) (b1 b2 b3 b4 : Nat) (tr : Trace)
    (h1 : b1 < 256) (h2 : b2 < 256) (h3 : b3 < 256) (h4 : b4 < 256) :
    ∃ evs,
      (AvrIspProgrammerSerialProgrammingInstruction target b1 b2 b3 b4 tr).2 = tr ++ evs ∧
      Wire evs [([b1, b2, b3, b4],
        (AvrIspProgrammerSerialProgrammingInstruction target b1 b2 b3 b4 tr).1)] ∧
      evs.count (Event.DelayUs 1000) = 0 := by
  obtain ⟨evs, r1, r2, r3, h, hf, hr⟩ := instruction_spec target b1 b2 b3 b4 tr h1 h2 h3 h4
  refine ⟨evs, h, wire_frame _ _ _ _ _ _ hf hr rfl, ?_⟩
  have hc := count_delay_instruction target b1 b2 b3 b4 tr h1 h2 h3 h4
  rw [h, List.count_append] at hc
  omega

/-! ## Ready polling -/

theorem pollRDY_events (target : Target) (tr : Trace) :
    ∃ evs r1 r2 r3 r,
      (AvrIspProgrammerPollRDY target tr).2 = tr ++ evs ∧
      IsFrame pollFrame evs ∧ recvBytes evs = [r1, r2, r3, r] ∧
      evs.count (Event.DelayUs 1000) = 0 ∧
      (AvrIspProgrammerPollRDY target tr).1 = r &&& 1 := by
  obtain ⟨evs, r1, r2, r3, h, hf, hr⟩ := instruction_spec target 0xF0 0x00 0x00 0x00 tr
    (by norm_num) (by norm_num) (by norm_num) (by norm_num)
  have hc := count_delay_instruction target 0xF0 0x00 0x00 0x00 tr
    (by norm_num) (by norm_num) (by norm_num) (by norm_num)
  rw [h, List.count_append] at hc
  exact ⟨evs, r1, r2, r3, _, h, hf, hr, by omega, rfl⟩

theorem pollRDY_wire (target : Target) (tr : Trace) :
    ∃ evs r,
      (AvrIspProgrammerPollRDY target tr).2 = tr ++ evs ∧
      Wire evs [(pollFrame, r)] ∧ evs.count (Event.DelayUs 1000) = 0 ∧
      (AvrIspProgrammerPollRDY target tr).1 = r &&& 1 := by
  obtain ⟨evs, r1, r2, r3, r, h, hf, hr, hc, hv⟩ := pollRDY_events target tr
  exact ⟨evs, r, h, wire_frame _ _ _ _ _ _ hf hr rfl, hc, hv⟩

theorem waitReady_succ (target : Target) (fuel : Nat) (tr : Trace) :
    AvrIspProgrammingWaitReady target (fuel + 1) tr
      = if (AvrIspProgrammerPollRDY target tr).1 ≠ 0 then
          AvrIspProgrammingWaitReady target fuel
            ((AvrIspProgrammerPollRDY target tr).2 ++ [Event.DelayUs 1000])
        else some (AvrIspProgrammerPollRDY target tr).2 :=
  rfl

/-- More fuel does not change the result of a ready-wait that returned. -/
theorem waitReady_mono (target : Target) :
    ∀ fuel tr out, AvrIspProgrammingWaitReady target fuel tr = some out →
      ∀ fuel2, fuel ≤ fuel2 → AvrIspProgrammingWaitReady target fuel2 tr = some out := by
  intro fuel
  induction fuel with
  | zero => intro tr out h; simp [AvrIspProgrammingWaitReady] at h
  | succ fuel ih =>
    intro tr out h fuel2 hle
    obtain ⟨m, rfl⟩ : ∃ m, fuel2 = m + 1 := ⟨fuel2 - 1, by omega⟩
    rw [waitReady_succ] at h ⊢
    by_cases hp : (AvrIspProgrammerPollRDY target tr).1 ≠ 0
    · rw [if_pos hp] at h ⊢
      exact ih _ _ h m (by omega)
    · rw [if_neg hp] at h ⊢
      exact h

/-- A ready-wait that returns has put on the wire some polls answered busy
(bit 0 set), each followed by a delay of 1000 microseconds, and then one poll
answered ready (bit 0 clear). -/
theorem waitReady_spec (target : Target) :
    ∀ fuel tr out, AvrIspProgrammingWaitReady target fuel tr = some out →
      ∃ (evs : Trace) (busy : List Nat) (rdy : Nat), out = tr ++ evs ∧
        Wire evs (busy.map (fun b => (pollFrame, b)) ++ [(pollFrame, rdy)]) ∧
        (∀ b, b ∈ busy → b % 2 = 1) ∧ rdy % 2 = 0 ∧ busy.length < fuel ∧
        evs.count (Event.DelayUs 1000) = busy.length := by
  intro fuel
  induction fuel with
  | zero => intro tr out h; simp [AvrIspProgrammingWaitReady] at h
  | succ fuel ih =>
    intro tr out h
    rw [waitReady_succ] at h
    obtain ⟨evs, r, hp2, hw, hc, hp1⟩ := pollRDY_wire target tr
    have hr : r &&& 1 = r % 2 := Nat.and_one_is_mod r
    by_cases hp : (AvrIspProgrammerPollRDY target tr).1 ≠ 0
    · rw [if_pos hp, hp2] at h
      obtain ⟨evs2, busy, rdy, hout, hw2, hb, hrdy, hlen, hcount⟩ := ih _ _ h
      have hd : Wire [Event.DelayUs 1000] [] := by unfold Wire; decide
      refine ⟨evs ++ [Event.DelayUs 1000] ++ evs2, r :: busy, rdy, ?_, ?_, ?_, hrdy, ?_, ?_⟩
      · rw [hout]; simp [List.append_assoc]
      · have := wire_append _ _ _ _ (wire_append _ _ _ _ hw hd) hw2
        simpa using this
      · intro b hmem
        rcases List.mem_cons.mp hmem with rfl | hm
        · rw [hp1, hr] at hp; omega
        · exact hb b hm
      · simp; omega
      · simp only [List.count_append, hc, hcount, List.length_cons]
        simp
        omega
    · rw [if_neg hp] at h
      refine ⟨evs, [], r, ?_, ?_, ?_, ?_, ?_, ?_⟩
      · rw [← hp2]; exact (Option.some.inj h).symm
      · simpa using hw
      · intro b hb; simp at hb
      · rw [hp1, hr] at hp; omega
      · simp
      · simpa using hc

theorem waitReady_busy (target : Target) :
    ∀ n fuel tr, (∀ j, j < n → pollAt target j tr ≠ 0) → pollAt target n tr = 0 →
      n < fuel →
      AvrIspProgrammingWaitReady target fuel tr
        = some (AvrIspProgrammerPollRDY target (afterPolls target n tr)).2 := by
  intro n
  induction n with
  | zero =>
    intro fuel tr _ hn hf
    obtain ⟨m, rfl⟩ : ∃ m, fuel = m + 1 := ⟨fuel - 1, by omega⟩
    have h0 : (AvrIspProgrammerPollRDY target tr).1 = 0 := hn
    rw [waitReady_succ, if_neg (by rw [h0]; simp)]
    rfl
  | succ n ih =>
    intro fuel tr hb hn hf
    obtain ⟨m, rfl⟩ : ∃ m, fuel = m + 1 := ⟨fuel - 1, by omega⟩
    have h0 : (AvrIspProgrammerPollRDY target tr).1 ≠ 0 := hb 0 (by omega)
    rw [waitReady_succ, if_pos h0]
    exact ih m _ (fun j hj => hb (j + 1) (by omega)) hn (by omega)

theorem waitReady_starve (target : Target) :
    ∀ fuel n tr, (∀ j, j < n → pollAt target j tr ≠ 0) → fuel ≤ n →
      AvrIspProgrammingWaitReady target fuel tr = none := by
  intro fuel
  induction fuel with
  | zero => intro n tr _ _; rfl
  | succ fuel ih =>
    intro n tr hb hf
    obtain ⟨m, rfl⟩ : ∃ m, n = m + 1 := ⟨n - 1, by omega⟩
    have h0 : (AvrIspProgrammerPollRDY target tr).1 ≠ 0 := hb 0 (by omega)
    rw [waitReady_succ, if_pos h0]
    exact ih m _ (fun j hj => hb (j + 1) (by omega)) (by omega)

/-- The history after `n` busy polls: `n` poll frames, each followed by one
delay of 1000 microseconds. -/
theorem afterPolls_spec (target : Target) :
    ∀ n tr, ∃ polls : List Trace, polls.length = n ∧
      afterPolls target n tr
        = tr ++ List.flatten (polls.map (fun p => p ++ [Event.DelayUs 1000])) ∧
      ∀ p, p ∈ polls → IsFrame pollFrame p ∧ p.count (Event.DelayUs 1000) = 0 := by
  intro n
  induction n with
  | zero => intro tr; exact ⟨[], rfl, by simp [afterPolls], by simp⟩
  | succ n ih =>
    intro tr
    obtain ⟨evs, _, _, _, _, h, hf, _, hc, _⟩ := pollRDY_events target tr
    obtain ⟨polls, hlen, hrest, hall⟩ := ih ((AvrIspProgrammerPollRDY target tr).2
      ++ [Event.DelayUs 1000])
    refine ⟨evs :: polls, by simp [hlen], ?_, ?_⟩
    · show afterPolls target n ((AvrIspProgrammerPollRDY target tr).2
        ++ [Event.DelayUs 1000]) = _
      rw [hrest, h]
      simp [List.append_assoc]
    · intro p hmem
      rcases List.mem_cons.mp hmem with rfl | hm
      · exact ⟨hf, hc⟩
      · exact hall p hm

theorem polls_observed (polls : List Trace)
    (h : ∀ p, p ∈ polls → IsFrame pollFrame p ∧ p.count (Event.DelayUs 1000) = 0) :
    (List.flatten (polls.map (fun p => p ++ [Event.DelayUs 1000]))).count (Event.DelayUs 1000)
        = polls.length ∧
      (mosiBits (List.flatten (polls.map (fun p => p ++ [Event.DelayUs 1000])))).length
        = 8 * (4 * polls.length) ∧
      sentBytes (List.flatten (polls.map (fun p => p ++ [Event.DelayUs 1000])))
        = List.flatten (List.replicate polls.length pollFrame) := by
  induction polls with
  | nil => exact ⟨rfl, rfl, rfl⟩
  | cons p polls ih =>
    obtain ⟨⟨hs, hm, _, _⟩, hc⟩ := h p (List.mem_cons_self p polls)
    obtain ⟨ih1, ih2, ih3⟩ := ih (fun q hq => h q (List.mem_cons_of_mem p hq))
    have hd : mosiBits [Event.DelayUs 1000] = [] := rfl
    refine ⟨?_, ?_, ?_⟩
    · simp only [List.map_cons, List.flatten_cons, List.count_append, hc, ih1,
        List.length_cons]
      simp
      omega
    · simp only [List.map_cons, List.flatten_cons, mosiBits_append, hd, List.append_nil,
        List.length_append, hm, ih2, List.length_cons]
      omega
    · unfold sentBytes at *
      simp only [List.map_cons, List.flatten_cons, mosiBits_append, hd, List.append_nil,
        List.length_cons, List.replicate_succ]
      rw [bytesOfBits_append 4 _ _ (by rw [hm]), hs, ih3]

/-- C14. A poll sends exactly the frame `0xF0 0x00 0x00 0x00` and returns
`r & 1`, where `r` is the byte received during the fourth transfer: the value
is bit 0 of `r`, it is 0 or 1, it is 0 exactly when bit 0 of `r` is clear, and
bits 1 to 7 of `r` play no part. -/
theorem pollRDY_frame (target : Target) (tr : Trace) :
    ∃ (evs : Trace) (r1 r2 r3 r : Nat),
      (AvrIspProgrammerPollRDY target tr).2 = tr ++ evs ∧
      (mosiBits evs).length = 4 * 8 ∧
      sentBytes evs = [0xF0, 0x00, 0x00, 0x00] ∧
      recvBytes evs = [r1, r2, r3, r] ∧
      (AvrIspProgrammerPollRDY target tr).1 = r &&& 1 ∧
      (AvrIspProgrammerPollRDY target tr).1 = r % 2 ∧
      ((AvrIspProgrammerPollRDY target tr).1 = 0 ∨ (AvrIspProgrammerPollRDY target tr).1 = 1) ∧
      ((AvrIspProgrammerPollRDY target tr).1 = 0 ↔ r.testBit 0 = false) := by
  obtain ⟨evs, r1, r2, r3, r, h, ⟨hs, hm, _, _⟩, hr, _, hv⟩ := pollRDY_events target tr
  have hmod : r &&& 1 = r % 2 := Nat.and_one_is_mod r
  refine ⟨evs, r1, r2, r3, r, h, hm, hs, hr, hv, by rw [hv, hmod], ?_, ?_⟩
  · rw [hv, hmod]; omega
  · rw [hv, hmod, Nat.testBit_zero]
    simp

/-- C13. If the first `n` polls of a ready-wait report busy (bit 0 of the
response set) and poll `n + 1` reports ready, the ready-wait returns as soon
as it may make more than `n` polls and cannot return with `n` polls or fewer.
What it did is exactly `n + 1` poll frames and `n` delays of 1000
microseconds, one after each busy poll and none after the ready poll. -/
theorem waitReady_polls (target : Target) (tr : Trace) (n : Nat)
    (hbusy : ∀ j, j < n → pollAt target j tr = 1)
    (hready : pollAt target n tr = 0) :
    ∃ (polls : List Trace) (last : Trace),
      (∀ fuel, n < fuel → AvrIspProgrammingWaitReady target fuel tr
        = some (tr ++ List.flatten (polls.map (fun p => p ++ [Event.DelayUs 1000])) ++ last)) ∧
      (∀ fuel, fuel ≤ n → AvrIspProgrammingWaitReady target fuel tr = none) ∧
      polls.length = n ∧
      (∀ p, p ∈ polls ++ [last] →
        sentBytes p = [0xF0, 0x00, 0x00, 0x00] ∧ (mosiBits p).length = 4 * 8 ∧
          p.count (Event.DelayUs 1000) = 0) ∧
      (List.flatten (polls.map (fun p => p ++ [Event.DelayUs 1000])) ++ last).count
        (Event.DelayUs 1000) = n ∧
      sentBytes (List.flatten (polls.map (fun p => p ++ [Event.DelayUs 1000])) ++ last)
        = List.flatten (List.replicate (n + 1) [0xF0, 0x00, 0x00, 0x00]) := by
  have hb : ∀ j, j < n → pollAt target j tr ≠ 0 := fun j hj => by rw [hbusy j hj]; simp
  obtain ⟨polls, hlen, hafter, hall⟩ := afterPolls_spec target n tr
  obtain ⟨last, _, _, _, _, hl, hlf, _, hlc, _⟩ := pollRDY_events target (afterPolls target n tr)
  obtain ⟨hc, hm, hs⟩ := polls_observed polls hall
  refine ⟨polls, last, ?_, ?_, hlen, ?_, ?_, ?_⟩
  · intro fuel hf
    rw [waitReady_busy target n fuel tr hb hready hf, hl, hafter]
  · intro fuel hf
    exact waitReady_starve target fuel n tr hb hf
  · intro p hp
    rcases List.mem_append.mp hp with h1 | h1
    · exact ⟨(hall p h1).1.1, (hall p h1).1.2.1, (hall p h1).2⟩
    · rw [List.mem_singleton] at h1
      subst h1
      exact ⟨hlf.1, hlf.2.1, hlc⟩
  · rw [List.count_append, hc, hlc, hlen]; rfl
  · have hls := hlf.1
    unfold sentBytes at *
    rw [mosiBits_append, bytesOfBits_append (4 * polls.length) _ _ hm, hs, hls, hlen,
      List.replicate_succ', List.flatten_append]
    simp [pollFrame]


set_option maxRecDepth 1000000 in
/-- Witness of C13 with `n = 1`: a target that answers busy to the first poll
and ready to the second. -/
theorem waitReady_polls_witness :
    pollAt (busyPolls 0 1) 0 [] = 1 ∧ pollAt (busyPolls 0 1) 1 [] = 0 ∧
    ∃ (polls : List Trace) (last : Trace),
      (∀ fuel, 1 < fuel → AvrIspProgrammingWaitReady (busyPolls 0 1) fuel []
        = some ([] ++ List.flatten (polls.map (fun p => p ++ [Event.DelayUs 1000])) ++ last)) ∧
      (∀ fuel, fuel ≤ 1 → AvrIspProgrammingWaitReady (busyPolls 0 1) fuel [] = none) ∧
      polls.length = 1 ∧
      (∀ p, p ∈ polls ++ [last] →
        sentBytes p = [0xF0, 0x00, 0x00, 0x00] ∧ (mosiBits p).length = 4 * 8 ∧
          p.count (Event.DelayUs 1000) = 0) ∧
      (List.flatten (polls.map (fun p => p ++ [Event.DelayUs 1000])) ++ last).count
        (Event.DelayUs 1000) = 1 ∧
      sentBytes (List.flatten (polls.map (fun p => p ++ [Event.DelayUs 1000])) ++ last)
        = List.flatten (List.replicate (1 + 1) [0xF0, 0x00, 0x00, 0x00]) := by
  have h0 : pollAt (busyPolls 0 1) 0 [] = 1 := by decide
  have h1 : pollAt (busyPolls 0 1) 1 [] = 0 := by decide
  exact ⟨h0, h1, waitReady_polls (busyPolls 0 1) [] 1
    (fun j hj => by
      have hj0 : j = 0 := by omega
      subst hj0
      exact h0)
    h1⟩

/-! ## Single-frame operations and write-then-wait operations -/

theorem xor_one_shiftRight (a : Nat) : (a ^^^ 1) >>> 1 = a >>> 1 := by
  apply Nat.eq_of_testBit_eq
  intro i
  have h1 : Nat.testBit 1 (1 + i) = false :=
    Nat.testBit_lt_two_pow (Nat.one_lt_two_pow (by omega))
  rw [Nat.testBit_shiftRight, Nat.testBit_shiftRight, Nat.testBit_xor, h1]
  simp

theorem wordAddress_bytes (address : Nat) (ha : address < 65536) :
    (address >>> 1) % 65536 = address >>> 1 ∧
    ((address >>> 1) &&& 0xFF) % 256 = (address >>> 1) &&& 0xFF ∧
    ((address >>> 1) >>> 8) % 256 = (address >>> 1) >>> 8 ∧
    (address >>> 1) &&& 0xFF < 256 ∧ (address >>> 1) >>> 8 < 128 := by
  rw [and_ff, shiftRight_eight, shiftRight_one]
  omega

/-- A ready-wait that returns after an instruction: the frame of the
instruction, then the polls of the wait. -/
theorem instruction_then_wait (target : Target) (b1 b2 b3 b4 : Nat) (fuel : Nat)
    (tr out : Trace)
    (h1 : b1 < 256) (h2 : b2 < 256) (h3 : b3 < 256) (h4 : b4 < 256)
    (h : AvrIspProgrammingWaitReady target fuel
      (AvrIspProgrammerSerialProgrammingInstruction target b1 b2 b3 b4 tr).2 = some out) :
    ∃ (w p : Trace) (r : Nat) (busy : List Nat) (rdy : Nat),
      (AvrIspProgrammerSerialProgrammingInstruction target b1 b2 b3 b4 tr).2 = tr ++ w ∧
      out = tr ++ w ++ p ∧
      Wire w [([b1, b2, b3, b4], r)] ∧
      Wire p (busy.map (fun b => (pollFrame, b)) ++ [(pollFrame, rdy)]) ∧
      (∀ b, b ∈ busy → b % 2 = 1) ∧ rdy % 2 = 0 := by
  obtain ⟨w, hw, hwire, _⟩ := instruction_wire target b1 b2 b3 b4 tr h1 h2 h3 h4
  obtain ⟨p, busy, rdy, hout, hp, hb, hr, _, _⟩ := waitReady_spec target fuel _ out h
  rw [hw] at hout
  exact ⟨w, p, _, busy, rdy, hw, hout, hwire, hp, hb, hr⟩

/-- C15. For a 16-bit byte address, `AvrIspProgrammerWriteMemoryPage` first
sends the frame `(0x4C, MSB, LSB, 0x00)` with `MSB = (address >> 1) >> 8` and
`LSB = (address >> 1) & 0xFF` and then is the ready-wait, whether or not that
returns; the two byte addresses of one word, `address` and `address xor 1`,
have the same word address and give the same run. -/
theorem writeMemoryPage_frame (target : Target) (address fuel : Nat) (tr : Trace)
    (ha : address < 65536) :
    ∃ evs : Trace,
      (mosiBits evs).length = 4 * 8 ∧
      sentBytes evs = [0x4C, (address >>> 1) >>> 8, (address >>> 1) &&& 0xFF, 0x00] ∧
      AvrIspProgrammerWriteMemoryPage target address fuel tr
        = AvrIspProgrammingWaitReady target fuel (tr ++ evs) ∧
      (address ^^^ 1) >>> 1 = address >>> 1 ∧
      AvrIspProgrammerWriteMemoryPage target (address ^^^ 1) fuel tr
        = AvrIspProgrammerWriteMemoryPage target address fuel tr := by
  obtain ⟨hw, hl, hm, hl2, hm2⟩ := wordAddress_bytes address ha
  obtain ⟨evs, _, _, _, h, ⟨hs, hmosi, _, _⟩, _⟩ := instruction_spec target 0x4C
    ((address >>> 1) >>> 8) ((address >>> 1) &&& 0xFF) 0x00 tr (by norm_num) (by omega) hl2
    (by norm_num)
  refine ⟨evs, hmosi, hs, ?_, xor_one_shiftRight address, ?_⟩
  · unfold AvrIspProgrammerWriteMemoryPage
    simp only [hw, hl, hm]
    rw [h]
  · unfold AvrIspProgrammerWriteMemoryPage
    simp only [xor_one_shiftRight]

/-- Witness of C15 at the odd address `0x1235`. -/
theorem writeMemoryPage_frame_witness :
    ∃ evs : Trace,
      (mosiBits evs).length = 4 * 8 ∧
      sentBytes evs = [0x4C, (0x1235 >>> 1) >>> 8, (0x1235 >>> 1) &&& 0xFF, 0x00] ∧
      AvrIspProgrammerWriteMemoryPage silent 0x1235 1 []
        = AvrIspProgrammingWaitReady silent 1 ([] ++ evs) ∧
      (0x1235 ^^^ 1) >>> 1 = 0x1235 >>> 1 ∧
      AvrIspProgrammerWriteMemoryPage silent (0x1235 ^^^ 1) 1 []
        = AvrIspProgrammerWriteMemoryPage silent 0x1235 1 [] :=
  writeMemoryPage_frame silent 0x1235 1 [] (by decide)

/-! ## Signature and fuse bits -/

theorem readSignatureLoop_three (target : Target) (signature : Nat → Nat) (tr : Trace) :
    readSignatureLoop target 0 signature tr
      = (Function.update (Function.update (Function.update signature 0
            (AvrIspProgrammerSerialProgrammingInstruction target 0x30 0x00 0 0x00 tr).1) 1
            (AvrIspProgrammerSerialProgrammingInstruction target 0x30 0x00 1 0x00
              (AvrIspProgrammerSerialProgrammingInstruction target 0x30 0x00 0 0x00 tr).2).1) 2
            (AvrIspProgrammerSerialProgrammingInstruction target 0x30 0x00 2 0x00
              (AvrIspProgrammerSerialProgrammingInstruction target 0x30 0x00 1 0x00
                (AvrIspProgrammerSerialProgrammingInstruction target 0x30 0x00 0 0x00
                  tr).2).2).1,
          (AvrIspProgrammerSerialProgrammingInstruction target 0x30 0x00 2 0x00
              (AvrIspProgrammerSerialProgrammingInstruction target 0x30 0x00 1 0x00
                (AvrIspProgrammerSerialProgrammingInstruction target 0x30 0x00 0 0x00
                  tr).2).2).2) := by
  rw [readSignatureLoop, if_pos (by norm_num)]
  simp only []
  rw [readSignatureLoop, if_pos (by norm_num)]
  simp only []
  rw [readSignatureLoop, if_pos (by norm_num)]
  simp only []
  rw [readSignatureLoop, if_neg (by norm_num)]

/-- Three instructions in a row. -/
theorem three_instructions (target : Target) (a1 a2 a3 a4 b1 b2 b3 b4 c1 c2 c3 c4 : Nat)
    (tr : Trace)
    (ha : a1 < 256 ∧ a2 < 256 ∧ a3 < 256 ∧ a4 < 256)
    (hb : b1 < 256 ∧ b2 < 256 ∧ b3 < 256 ∧ b4 < 256)
    (hc : c1 < 256 ∧ c2 < 256 ∧ c3 < 256 ∧ c4 < 256) :
    ∃ evs,
      (AvrIspProgrammerSerialProgrammingInstruction target c1 c2 c3 c4
        (AvrIspProgrammerSerialProgrammingInstruction target b1 b2 b3 b4
          (AvrIspProgrammerSerialProgrammingInstruction target a1 a2 a3 a4 tr).2).2).2
        = tr ++ evs ∧
      Wire evs
        [([a1, a2, a3, a4],
            (AvrIspProgrammerSerialProgrammingInstruction target a1 a2 a3 a4 tr).1),
         ([b1, b2, b3, b4],
            (AvrIspProgrammerSerialProgrammingInstruction target b1 b2 b3 b4
              (AvrIspProgrammerSerialProgrammingInstruction target a1 a2 a3 a4 tr).2).1),
         ([c1, c2, c3, c4],
            (AvrIspProgrammerSerialProgrammingInstruction target c1 c2 c3 c4
              (AvrIspProgrammerSerialProgrammingInstruction target b1 b2 b3 b4
                (AvrIspProgrammerSerialProgrammingInstruction target a1 a2 a3 a4
                  tr).2).2).1)] := by
  obtain ⟨e1, h1, w1, _⟩ := instruction_wire target a1 a2 a3 a4 tr ha.1 ha.2.1 ha.2.2.1 ha.2.2.2
  obtain ⟨e2, h2, w2, _⟩ := instruction_wire target b1 b2 b3 b4
    (AvrIspProgrammerSerialProgrammingInstruction target a1 a2 a3 a4 tr).2
    hb.1 hb.2.1 hb.2.2.1 hb.2.2.2
  obtain ⟨e3, h3, w3, _⟩ := instruction_wire target c1 c2 c3 c4
    (AvrIspProgrammerSerialProgrammingInstruction target b1 b2 b3 b4
      (AvrIspProgrammerSerialProgrammingInstruction target a1 a2 a3 a4 tr).2).2
    hc.1 hc.2.1 hc.2.2.1 hc.2.2.2
  refine ⟨e1 ++ e2 ++ e3, ?_, ?_⟩
  · rw [h3, h2, h1]; simp [List.append_assoc]
  · have := wire_append _ _ _ _ (wire_append _ _ _ _ w1 w2) w3
    simpa using this

/-- C16. `AvrIspProgrammerReadSignature` puts exactly three frames on the
wire, `0x30 0x00 0 0x00`, `0x30 0x00 1 0x00` and `0x30 0x00 2 0x00` in that
order, and stores the response to frame `i` in `signature[i]`, whatever the
target answers; nothing else in the array is written. -/
theorem readSignature_frames (target : Target) (signature : Nat → Nat) (tr : Trace) :
    ∃ (evs : Trace) (s0 s1 s2 : Nat),
      (AvrIspProgrammerReadSignature target signature tr).2 = tr ++ evs ∧
      (mosiBits evs).length = 3 * (4 * 8) ∧
      sentFrames evs
        = [[0x30, 0x00, 0, 0x00], [0x30, 0x00, 1, 0x00], [0x30, 0x00, 2, 0x00]] ∧
      responses evs = [s0, s1, s2] ∧
      (AvrIspProgrammerReadSignature target signature tr).1 0 = s0 ∧
      (AvrIspProgrammerReadSignature target signature tr).1 1 = s1 ∧
      (AvrIspProgrammerReadSignature target signature tr).1 2 = s2 ∧
      ∀ i, 3 ≤ i → (AvrIspProgrammerReadSignature target signature tr).1 i = signature i := by
  obtain ⟨evs, h, hs, hr, hm, _, _⟩ := three_instructions target 0x30 0x00 0 0x00
    0x30 0x00 1 0x00 0x30 0x00 2 0x00 tr (by norm_num) (by norm_num) (by norm_num)
  unfold AvrIspProgrammerReadSignature
  rw [readSignatureLoop_three]
  refine ⟨evs, _, _, _, h, hm, hs, hr, ?_, ?_, ?_, ?_⟩
  · simp [Function.update]
  · simp [Function.update]
  · simp [Function.update]
  · intro i hi
    have h0 : i ≠ 0 := by omega
    have h1 : i ≠ 1 := by omega
    have h2 : i ≠ 2 := by omega
    simp [Function.update, h0, h1, h2]

/-- C17. `AvrIspProgrammerReadFuseBits` puts exactly three frames on the
wire, `0x50 0x00 0x00 0x00`, `0x58 0x08 0x00 0x00` and `0x50 0x08 0x00 0x00`
in that order (so no poll), and sets `low`, `high` and `extended` to the
responses to the first, second and third frame, whatever the target
answers. -/
theorem readFuseBits_frames (target : Target) (fusebits : FuseBits_t) (tr : Trace) :
    ∃ (evs : Trace) (s1 s2 s3 : Nat),
      (AvrIspProgrammerReadFuseBits target fusebits tr).2 = tr ++ evs ∧
      (mosiBits evs).length = 3 * (4 * 8) ∧
      sentFrames evs
        = [[0x50, 0x00, 0x00, 0x00], [0x58, 0x08, 0x00, 0x00], [0x50, 0x08, 0x00, 0x00]] ∧
      responses evs = [s1, s2, s3] ∧
      (AvrIspProgrammerReadFuseBits target fusebits tr).1
        = { low := s1, high := s2, extended := s3 } := by
  obtain ⟨evs, h, hs, hr, hm, _, _⟩ := three_instructions target 0x50 0x00 0x00 0x00
    0x58 0x08 0x00 0x00 0x50 0x08 0x00 0x00 tr (by norm_num) (by norm_num) (by norm_num)
  exact ⟨evs, _, _, _, h, hm, hs, hr, rfl⟩

/-! ## Writing fuse bits -/

theorem wire_sentFrames_polls (p : Trace) (busy : List Nat) (rdy : Nat)
    (h : Wire p (busy.map (fun b => (pollFrame, b)) ++ [(pollFrame, rdy)])) :
    sentFrames p = List.replicate (busy.length + 1) pollFrame := by
  rw [h.1, List.map_append, List.map_map]
  have : (Prod.fst ∘ fun b : Nat => (pollFrame, b)) = fun _ => pollFrame := rfl
  rw [this, List.map_const', List.replicate_succ']
  rfl

theorem writeFuseBits_some (target : Target) (fusebits : FuseBits_t) (fuel : Nat)
    (tr : Trace) (res : FuseBits_t × Trace)
    (h : AvrIspProgrammerWriteFuseBits target fusebits fuel tr = some res) :
    ∃ tr1 tr2,
      AvrIspProgrammingWaitReady target fuel
        (AvrIspProgrammerSerialProgrammingInstruction target 0xAC 0xA0 0x00 fusebits.low tr).2
        = some tr1 ∧
      AvrIspProgrammingWaitReady target fuel
        (AvrIspProgrammerSerialProgrammingInstruction target 0xAC 0xA8 0x00 fusebits.high tr1).2
        = some tr2 ∧
      AvrIspProgrammingWaitReady target fuel
        (AvrIspProgrammerSerialProgrammingInstruction target 0xAC 0xA4 0x00
          fusebits.extended tr2).2 = some res.2 ∧
      res.1 = fusebits := by
  unfold AvrIspProgrammerWriteFuseBits at h
  simp only [Option.bind_eq_some] at h
  obtain ⟨tr1, h1, tr2, h2, tr3, h3, h4⟩ := h
  have h5 := Option.some.inj h4
  subst h5
  exact ⟨tr1, tr2, h1, h2, h3, rfl⟩

theorem writeFuseBits_of_waits (target : Target) (fusebits : FuseBits_t) (fuel : Nat)
    (tr tr1 tr2 tr3 : Trace)
    (h1 : AvrIspProgrammingWaitReady target fuel
        (AvrIspProgrammerSerialProgrammingInstruction target 0xAC 0xA0 0x00 fusebits.low tr).2
        = some tr1)
    (h2 : AvrIspProgrammingWaitReady target fuel
        (AvrIspProgrammerSerialProgrammingInstruction target 0xAC 0xA8 0x00 fusebits.high tr1).2
        = some tr2)
    (h3 : AvrIspProgrammingWaitReady target fuel
        (AvrIspProgrammerSerialProgrammingInstruction target 0xAC 0xA4 0x00
          fusebits.extended tr2).2 = some tr3) :
    AvrIspProgrammerWriteFuseBits target fusebits fuel tr = some (fusebits, tr3) := by
  unfold AvrIspProgrammerWriteFuseBits
  simp only [h1, h2, h3, Option.some_bind]

/-- The wire during a run of `AvrIspProgrammerWriteFuseBits` that returns. -/
theorem writeFuseBits_wire (target : Target) (fusebits : FuseBits_t) (fuel : Nat)
    (tr : Trace) (res : FuseBits_t × Trace)
    (hf : fusebits.low < 256 ∧ fusebits.high < 256 ∧ fusebits.extended < 256)
    (h : AvrIspProgrammerWriteFuseBits target fusebits fuel tr = some res) :
    ∃ (w1 p1 w2 p2 w3 p3 : Trace) (r1 r2 r3 : Nat) (busy1 busy2 busy3 : List Nat)
      (rdy1 rdy2 rdy3 : Nat),
      res = (fusebits, tr ++ w1 ++ p1 ++ w2 ++ p2 ++ w3 ++ p3) ∧
      AvrIspProgrammingWaitReady target fuel (tr ++ w1) = some (tr ++ w1 ++ p1) ∧
      AvrIspProgrammingWaitReady target fuel (tr ++ w1 ++ p1 ++ w2)
        = some (tr ++ w1 ++ p1 ++ w2 ++ p2) ∧
      AvrIspProgrammingWaitReady target fuel (tr ++ w1 ++ p1 ++ w2 ++ p2 ++ w3)
        = some (tr ++ w1 ++ p1 ++ w2 ++ p2 ++ w3 ++ p3) ∧
      Wire w1 [([0xAC, 0xA0, 0x00, fusebits.low], r1)] ∧
      Wire p1 (busy1.map (fun b => (pollFrame, b)) ++ [(pollFrame, rdy1)]) ∧
      Wire w2 [([0xAC, 0xA8, 0x00, fusebits.high], r2)] ∧
      Wire p2 (busy2.map (fun b => (pollFrame, b)) ++ [(pollFrame, rdy2)]) ∧
      Wire w3 [([0xAC, 0xA4, 0x00, fusebits.extended], r3)] ∧
      Wire p3 (busy3.map (fun b => (pollFrame, b)) ++ [(pollFrame, rdy3)]) ∧
      ((∀ b, b ∈ busy1 → b % 2 = 1) ∧ rdy1 % 2 = 0) ∧
      ((∀ b, b ∈ busy2 → b % 2 = 1) ∧ rdy2 % 2 = 0) ∧
      ((∀ b, b ∈ busy3 → b % 2 = 1) ∧ rdy3 % 2 = 0) := by
  obtain ⟨tr1, tr2, h1, h2, h3, h4⟩ := writeFuseBits_some target fusebits fuel tr res h
  obtain ⟨w1, p1, r1, busy1, rdy1, hi1, ho1, hw1, hp1, hb1, hr1⟩ :=
    instruction_then_wait target 0xAC 0xA0 0x00 fusebits.low fuel tr tr1
      (by norm_num) (by norm_num) (by norm_num) hf.1 h1
  subst ho1
  obtain ⟨w2, p2, r2, busy2, rdy2, hi2, ho2, hw2, hp2, hb2, hr2⟩ :=
    instruction_then_wait target 0xAC 0xA8 0x00 fusebits.high fuel _ tr2
      (by norm_num) (by norm_num) (by norm_num) hf.2.1 h2
  subst ho2
  obtain ⟨w3, p3, r3, busy3, rdy3, hi3, ho3, hw3, hp3, hb3, hr3⟩ :=
    instruction_then_wait target 0xAC 0xA4 0x00 fusebits.extended fuel _ res.2
      (by norm_num) (by norm_num) (by norm_num) hf.2.2 h3
  rw [hi1] at h1
  rw [hi2] at h2
  rw [hi3, ho3] at h3
  exact ⟨w1, p1, w2, p2, w3, p3, r1, r2, r3, busy1, busy2, busy3, rdy1, rdy2, rdy3,
    Prod.ext h4 ho3, h1, h2, h3, hw1, hp1, hw2, hp2, hw3, hp3, ⟨hb1, hr1⟩, ⟨hb2, hr2⟩,
    ⟨hb3, hr3⟩⟩

/-- With a target on which every ready-wait returns, a run of
`AvrIspProgrammerWriteFuseBits` returns when given enough fuel. -/
theorem writeFuseBits_returns (target : Target) (fusebits : FuseBits_t) (tr : Trace)
    (hready : ∀ t, ∃ fuel out, AvrIspProgrammingWaitReady target fuel t = some out) :
    ∃ fuel out, AvrIspProgrammerWriteFuseBits target fusebits fuel tr
      = some (fusebits, out) := by
  obtain ⟨f1, tr1, h1⟩ := hready
    (AvrIspProgrammerSerialProgrammingInstruction target 0xAC 0xA0 0x00 fusebits.low tr).2
  obtain ⟨f2, tr2, h2⟩ := hready
    (AvrIspProgrammerSerialProgrammingInstruction target 0xAC 0xA8 0x00 fusebits.high tr1).2
  obtain ⟨f3, tr3, h3⟩ := hready
    (AvrIspProgrammerSerialProgrammingInstruction target 0xAC 0xA4 0x00 fusebits.extended tr2).2
  refine ⟨f1 + f2 + f3, tr3, ?_⟩
  exact writeFuseBits_of_waits target fusebits _ tr tr1 tr2 tr3
    (waitReady_mono target _ _ _ h1 _ (by omega))
    (waitReady_mono target _ _ _ h2 _ (by omega))
    (waitReady_mono target _ _ _ h3 _ (by omega))

/-- Two runs of `AvrIspProgrammerWriteFuseBits` that both return have the
same result, whatever their fuel. -/
theorem writeFuseBits_unique (target : Target) (fusebits : FuseBits_t) (tr : Trace)
    (fuel fuel2 : Nat) (res res2 : FuseBits_t × Trace)
    (h : AvrIspProgrammerWriteFuseBits target fusebits fuel tr = some res)
    (h2 : AvrIspProgrammerWriteFuseBits target fusebits fuel2 tr = some res2) :
    res2 = res := by
  obtain ⟨a1, a2, ha1, ha2, ha3, ha4⟩ := writeFuseBits_some target fusebits fuel tr res h
  obtain ⟨b1, b2, hb1, hb2, hb3, hb4⟩ := writeFuseBits_some target fusebits fuel2 tr res2 h2
  have e1 : b1 = a1 := by
    have x := waitReady_mono target _ _ _ ha1 (fuel + fuel2) (by omega)
    have y := waitReady_mono target _ _ _ hb1 (fuel + fuel2) (by omega)
    rw [x] at y
    exact (Option.some.inj y).symm
  subst e1
  have e2 : b2 = a2 := by
    have x := waitReady_mono target _ _ _ ha2 (fuel + fuel2) (by omega)
    have y := waitReady_mono target _ _ _ hb2 (fuel + fuel2) (by omega)
    rw [x] at y
    exact (Option.some.inj y).symm
  subst e2
  have e3 : res2.2 = res.2 := by
    have x := waitReady_mono target _ _ _ ha3 (fuel + fuel2) (by omega)
    have y := waitReady_mono target _ _ _ hb3 (fuel + fuel2) (by omega)
    rw [x] at y
    exact (Option.some.inj y).symm
  exact Prod.ext (by rw [hb4, ha4]) e3

theorem misoSamples_silent (m : List Bool) :
    ∀ tr, misoSamples (transferEvents silent tr m) = List.replicate m.length false := by
  induction m with
  | nil => intro tr; rfl
  | cons b m ih =>
    intro tr
    simp only [transferEvents, misoSamples_append, misoSamples_bitRound, ih, List.length_cons,
      List.replicate_succ]
    rfl

theorem spiTransfer_silent (v : Nat) (tr : Trace) (hv : v < 256) :
    (AvrIspProgrammerSpiTransfer silent v tr).1 = 0 := by
  rw [spiTransfer_spec silent v tr hv]
  show bitsVal (misoSamples (transferEvents silent tr (bitsMSB 8 v))) = 0
  rw [misoSamples_silent, bitsMSB_length]
  rfl

/-- On the silent target every poll reports ready, so every ready-wait
returns after one poll. -/
theorem waitReady_silent (tr : Trace) :
    ∃ fuel out, AvrIspProgrammingWaitReady silent fuel tr = some out := by
  have h0 : (AvrIspProgrammerPollRDY silent tr).1 = 0 := by
    show (AvrIspProgrammerSpiTransfer silent 0x00 _).1 &&& 1 = 0
    rw [spiTransfer_silent _ _ (by norm_num)]
    rfl
  refine ⟨1, (AvrIspProgrammerPollRDY silent tr).2, ?_⟩
  rw [waitReady_succ, if_neg (by rw [h0]; simp)]

/-- C11. On a target on which every ready-wait returns,
`AvrIspProgrammerWriteFuseBits` returns (given enough fuel, and with the same
result for every fuel with which it returns) after exactly three write
frames, `0xAC 0xA0 0x00 low`, `0xAC 0xA8 0x00 high` and
`0xAC 0xA4 0x00 extended` in that order, each followed by a complete
ready-wait (`n + 1` polls) before the next write frame.  The frames on the
wire other than polls are these three, and the structure behind the pointer
is unchanged. -/
theorem writeFuseBits_frames (target : Target) (fusebits : FuseBits_t) (tr : Trace)
    (hf : fusebits.low < 256 ∧ fusebits.high < 256 ∧ fusebits.extended < 256)
    (hready : ∀ t, ∃ fuel out, AvrIspProgrammingWaitReady target fuel t = some out) :
    ∃ (fuel : Nat) (w1 p1 w2 p2 w3 p3 : Trace) (n1 n2 n3 : Nat),
      AvrIspProgrammerWriteFuseBits target fusebits fuel tr
        = some (fusebits, tr ++ w1 ++ p1 ++ w2 ++ p2 ++ w3 ++ p3) ∧
      (∀ fuel2 res, AvrIspProgrammerWriteFuseBits target fusebits fuel2 tr = some res →
        res = (fusebits, tr ++ w1 ++ p1 ++ w2 ++ p2 ++ w3 ++ p3)) ∧
      sentFrames w1 = [[0xAC, 0xA0, 0x00, fusebits.low]] ∧
      AvrIspProgrammingWaitReady target fuel (tr ++ w1) = some (tr ++ w1 ++ p1) ∧
      sentFrames p1 = List.replicate (n1 + 1) [0xF0, 0x00, 0x00, 0x00] ∧
      sentFrames w2 = [[0xAC, 0xA8, 0x00, fusebits.high]] ∧
      AvrIspProgrammingWaitReady target fuel (tr ++ w1 ++ p1 ++ w2)
        = some (tr ++ w1 ++ p1 ++ w2 ++ p2) ∧
      sentFrames p2 = List.replicate (n2 + 1) [0xF0, 0x00, 0x00, 0x00] ∧
      sentFrames w3 = [[0xAC, 0xA4, 0x00, fusebits.extended]] ∧
      AvrIspProgrammingWaitReady target fuel (tr ++ w1 ++ p1 ++ w2 ++ p2 ++ w3)
        = some (tr ++ w1 ++ p1 ++ w2 ++ p2 ++ w3 ++ p3) ∧
      sentFrames p3 = List.replicate (n3 + 1) [0xF0, 0x00, 0x00, 0x00] ∧
      (mosiBits (w1 ++ p1 ++ w2 ++ p2 ++ w3 ++ p3)).length
        = 8 * (4 * (3 + (n1 + 1) + (n2 + 1) + (n3 + 1))) ∧
      (sentFrames (w1 ++ p1 ++ w2 ++ p2 ++ w3 ++ p3)).filter
          (fun f => decide (f ≠ [0xF0, 0x00, 0x00, 0x00]))
        = [[0xAC, 0xA0, 0x00, fusebits.low], [0xAC, 0xA8, 0x00, fusebits.high],
           [0xAC, 0xA4, 0x00, fusebits.extended]] := by
  obtain ⟨fuel, out, hrun⟩ := writeFuseBits_returns target fusebits tr hready
  obtain ⟨w1, p1, w2, p2, w3, p3, r1, r2, r3, busy1, busy2, busy3, rdy1, rdy2, rdy3,
    hres, hq1, hq2, hq3, hw1, hp1, hw2, hp2, hw3, hp3, _, _, _⟩ :=
    writeFuseBits_wire target fusebits fuel tr _ hf hrun
  have hout : out = tr ++ w1 ++ p1 ++ w2 ++ p2 ++ w3 ++ p3 := (Prod.ext_iff.mp hres).2
  subst hout
  have hall := wire_append _ _ _ _ (wire_append _ _ _ _ (wire_append _ _ _ _
    (wire_append _ _ _ _ (wire_append _ _ _ _ hw1 hp1) hw2) hp2) hw3) hp3
  have hs1 := wire_sentFrames_polls p1 busy1 rdy1 hp1
  have hs2 := wire_sentFrames_polls p2 busy2 rdy2 hp2
  have hs3 := wire_sentFrames_polls p3 busy3 rdy3 hp3
  refine ⟨fuel, w1, p1, w2, p2, w3, p3, busy1.length, busy2.length, busy3.length, hrun,
    ?_, hw1.1, hq1, hs1, hw2.1, hq2, hs2, hw3.1, hq3, hs3, ?_, ?_⟩
  · intro fuel2 res h2
    exact writeFuseBits_unique target fusebits tr fuel fuel2 _ res hrun h2
  · rw [hall.2.2.1]
    simp
    omega
  · rw [hall.1]
    simp only [List.map_append, List.map_map, List.filter_append]
    have hc : (Prod.fst ∘ fun b : Nat => (pollFrame, b)) = fun _ => pollFrame := rfl
    simp [hc, pollFrame, List.filter_replicate]

/-- Witness of C11: the fuse bytes `0x62 0xD9 0xFF` written to the silent
target, on which every ready-wait returns after one poll. -/
theorem writeFuseBits_frames_witness :
    ∃ (fuel : Nat) (w1 p1 w2 p2 w3 p3 : Trace) (n1 n2 n3 : Nat),
      AvrIspProgrammerWriteFuseBits silent ⟨0x62, 0xD9, 0xFF⟩ fuel []
        = some (⟨0x62, 0xD9, 0xFF⟩, [] ++ w1 ++ p1 ++ w2 ++ p2 ++ w3 ++ p3) ∧
      (∀ fuel2 res, AvrIspProgrammerWriteFuseBits silent ⟨0x62, 0xD9, 0xFF⟩ fuel2 [] = some res →
        res = (⟨0x62, 0xD9, 0xFF⟩, [] ++ w1 ++ p1 ++ w2 ++ p2 ++ w3 ++ p3)) ∧
      sentFrames w1 = [[0xAC, 0xA0, 0x00, 0x62]] ∧
      AvrIspProgrammingWaitReady silent fuel ([] ++ w1) = some ([] ++ w1 ++ p1) ∧
      sentFrames p1 = List.replicate (n1 + 1) [0xF0, 0x00, 0x00, 0x00] ∧
      sentFrames w2 = [[0xAC, 0xA8, 0x00, 0xD9]] ∧
      AvrIspProgrammingWaitReady silent fuel ([] ++ w1 ++ p1 ++ w2)
        = some ([] ++ w1 ++ p1 ++ w2 ++ p2) ∧
      sentFrames p2 = List.replicate (n2 + 1) [0xF0, 0x00, 0x00, 0x00] ∧
      sentFrames w3 = [[0xAC, 0xA4, 0x00, 0xFF]] ∧
      AvrIspProgrammingWaitReady silent fuel ([] ++ w1 ++ p1 ++ w2 ++ p2 ++ w3)
        = some ([] ++ w1 ++ p1 ++ w2 ++ p2 ++ w3 ++ p3) ∧
      sentFrames p3 = List.replicate (n3 + 1) [0xF0, 0x00, 0x00, 0x00] ∧
      (mosiBits (w1 ++ p1 ++ w2 ++ p2 ++ w3 ++ p3)).length
        = 8 * (4 * (3 + (n1 + 1) + (n2 + 1) + (n3 + 1))) ∧
      (sentFrames (w1 ++ p1 ++ w2 ++ p2 ++ w3 ++ p3)).filter
          (fun f => decide (f ≠ [0xF0, 0x00, 0x00, 0x00]))
        = [[0xAC, 0xA0, 0x00, 0x62], [0xAC, 0xA8, 0x00, 0xD9], [0xAC, 0xA4, 0x00, 0xFF]] :=
  writeFuseBits_frames silent ⟨0x62, 0xD9, 0xFF⟩ [] (by decide) waitReady_silent

/-! ## The ready-wait discipline -/

theorem wire_exchanges (evs : Trace) (xs : List (List Nat × Nat)) (h : Wire evs xs) :
    exchanges evs = xs := by
  unfold exchanges
  rw [h.1, h.2.1]
  exact (List.zip_of_prod rfl rfl).symm

theorem readyWaited_polls (busy : List Nat) (rdy : Nat) (rest : List (List Nat × Nat))
    (hb : ∀ b, b ∈ busy → b % 2 = 1) (hr : rdy % 2 = 0) :
    readyWaited true (busy.map (fun b => (pollFrame, b)) ++ (pollFrame, rdy) :: rest)
      = readyWaited false rest := by
  induction busy with
  | nil =>
    simp [readyWaited, hr]
  | cons b busy ih =>
    have h1 : b % 2 = 1 := hb b (List.mem_cons_self b busy)
    simp only [List.map_cons, List.cons_append, readyWaited, h1]
    simp
    exact ih (fun c hc => hb c (List.mem_cons_of_mem b hc))

theorem readyWaited_segment (f : List Nat) (r : Nat) (busy : List Nat) (rdy : Nat)
    (rest : List (List Nat × Nat)) (hf : f ≠ pollFrame)
    (hb : ∀ b, b ∈ busy → b % 2 = 1) (hr : rdy % 2 = 0) :
    readyWaited false ([(f, r)] ++ (busy.map (fun b => (pollFrame, b)) ++ [(pollFrame, rdy)])
        ++ rest) = readyWaited false rest := by
  have := readyWaited_polls busy rdy rest hb hr
  have hd : decide (f = pollFrame) = false := decide_eq_false hf
  simp only [List.singleton_append, List.cons_append, List.append_assoc, readyWaited]
  simpa [hd] using this

/-- One write frame followed by a ready-wait that returned, as exchanges. -/
theorem write_then_wait_exchanges (target : Target) (b1 b2 b3 b4 : Nat) (fuel : Nat)
    (tr out : Trace)
    (h1 : b1 < 256) (h2 : b2 < 256) (h3 : b3 < 256) (h4 : b4 < 256)
    (hne : [b1, b2, b3, b4] ≠ pollFrame)
    (h : AvrIspProgrammingWaitReady target fuel
      (AvrIspProgrammerSerialProgrammingInstruction target b1 b2 b3 b4 tr).2 = some out) :
    ∃ (evs : Trace) (xs : List (List Nat × Nat)) (rdy : Nat),
      out = tr ++ evs ∧ Wire evs xs ∧ xs ≠ [] ∧ readyWaited false xs = true ∧
      xs.getLast? = some (pollFrame, rdy) ∧ rdy % 2 = 0 := by
  obtain ⟨w, p, r, busy, rdy, _, hout, hw, hp, hb, hr⟩ :=
    instruction_then_wait target b1 b2 b3 b4 fuel tr out h1 h2 h3 h4 h
  refine ⟨w ++ p, _, rdy, by rw [hout, List.append_assoc], wire_append _ _ _ _ hw hp,
    by simp, ?_, ?_, hr⟩
  · have := readyWaited_segment [b1, b2, b3, b4] r busy rdy [] hne hb hr
    rw [List.append_nil] at this
    rw [this]; rfl
  · rw [← List.append_assoc]
    exact List.getLast?_concat _

/-- The exchanges of a run of a long-latency write operation that returns. -/
theorem longWrite_exchanges (target : Target) (op : Op) (fuel : Nat) (tr out : Trace)
    (hlong : op.isLongWrite = true) (hr : op.InRange)
    (h : op.run target fuel tr = some out) :
    ∃ (evs : Trace) (xs : List (List Nat × Nat)) (rdy : Nat),
      out = tr ++ evs ∧ Wire evs xs ∧ xs ≠ [] ∧ readyWaited false xs = true ∧
      xs.getLast? = some (pollFrame, rdy) ∧ rdy % 2 = 0 := by
  cases op with
  | chipErase =>
    exact write_then_wait_exchanges target 0xAC 0x80 0x00 0x00 fuel tr out
      (by norm_num) (by norm_num) (by norm_num) (by norm_num) (by simp [pollFrame]) h
  | writeMemoryPage a =>
    have ha : a < 65536 := hr
    obtain ⟨hw, hl, hm, hl2, hm2⟩ := wordAddress_bytes a ha
    have h2 : AvrIspProgrammingWaitReady target fuel
        (AvrIspProgrammerSerialProgrammingInstruction target 0x4C ((a >>> 1) >>> 8)
          ((a >>> 1) &&& 0xFF) 0x00 tr).2 = some out := by
      have h3 : AvrIspProgrammerWriteMemoryPage target a fuel tr = some out := h
      unfold AvrIspProgrammerWriteMemoryPage at h3
      simp only [hw, hl, hm] at h3
      exact h3
    exact write_then_wait_exchanges target 0x4C _ _ 0x00 fuel tr out
      (by norm_num) (by omega) hl2 (by norm_num) (by simp [pollFrame]) h2
  | writeLockBits b =>
    have hb : b < 256 := hr
    exact write_then_wait_exchanges target 0xAC 0xE0 0x00 b fuel tr out
      (by norm_num) (by norm_num) (by norm_num) hb (by simp [pollFrame]) h
  | writeFuseBits f =>
    have hf : f.low < 256 ∧ f.high < 256 ∧ f.extended < 256 := hr
    have h2 : (AvrIspProgrammerWriteFuseBits target f fuel tr).map Prod.snd = some out := h
    rw [Option.map_eq_some'] at h2
    obtain ⟨res, hres, hsnd⟩ := h2
    obtain ⟨w1, p1, w2, p2, w3, p3, r1, r2, r3, busy1, busy2, busy3, rdy1, rdy2, rdy3,
      hval, _, _, _, hw1, hp1, hw2, hp2, hw3, hp3, ⟨hb1, hr1⟩, ⟨hb2, hr2⟩, ⟨hb3, hr3⟩⟩ :=
      writeFuseBits_wire target f fuel tr res hf hres
    have hall := wire_append _ _ _ _ (wire_append _ _ _ _ (wire_append _ _ _ _
      (wire_append _ _ _ _ (wire_append _ _ _ _ hw1 hp1) hw2) hp2) hw3) hp3
    refine ⟨_, _, rdy3, ?_, hall, by simp, ?_, ?_, hr3⟩
    · rw [← hsnd, hval]; simp [List.append_assoc]
    · have s3 := readyWaited_segment [0xAC, 0xA4, 0x00, f.extended] r3 busy3 rdy3 []
        (by simp [pollFrame]) hb3 hr3
      have s2 := readyWaited_segment [0xAC, 0xA8, 0x00, f.high] r2 busy2 rdy2
        ([([0xAC, 0xA4, 0x00, f.extended], r3)]
          ++ (busy3.map (fun b => (pollFrame, b)) ++ [(pollFrame, rdy3)]) ++ [])
        (by simp [pollFrame]) hb2 hr2
      have s1 := readyWaited_segment [0xAC, 0xA0, 0x00, f.low] r1 busy1 rdy1
        ([([0xAC, 0xA8, 0x00, f.high], r2)]
          ++ (busy2.map (fun b => (pollFrame, b)) ++ [(pollFrame, rdy2)])
          ++ ([([0xAC, 0xA4, 0x00, f.extended], r3)]
          ++ (busy3.map (fun b => (pollFrame, b)) ++ [(pollFrame, rdy3)]) ++ []))
        (by simp [pollFrame]) hb1 hr1
      rw [s2, s3] at s1
      simp only [List.append_assoc, List.append_nil] at s1 ⊢
      rw [s1]; rfl
    · rw [← List.append_assoc]
      exact List.getLast?_concat _
  | begin => simp [Op.isLongWrite] at hlong
  | poll => simp [Op.isLongWrite] at hlong
  | waitReady => simp [Op.isLongWrite] at hlong
  | loadExtendedAddress e => simp [Op.isLongWrite] at hlong
  | loadProgramMemoryPage a d => simp [Op.isLongWrite] at hlong
  | readProgramMemory a => simp [Op.isLongWrite] at hlong
  | readLockBits => simp [Op.isLongWrite] at hlong
  | readFuseBits f => simp [Op.isLongWrite] at hlong
  | readSignature s => simp [Op.isLongWrite] at hlong
  | readCalibrationByte => simp [Op.isLongWrite] at hlong

/-- C12. Whenever one of the long-latency write operations (chip erase,
write memory page, write lock bits, write fuse bits) returns, the exchanges
it put on the wire obey the ready-wait discipline: every frame other than a
poll is followed by polls only, up to and including a poll whose response has
bit 0 clear, before any other frame is sent, and the last frame sent is such
a ready poll. -/
theorem longWrite_ends_with_readyWait (target : Target) (op : Op) (fuel : Nat) (tr : Trace)
    (hlong : op.isLongWrite = true) (hr : op.InRange)
    (hret : (op.run target fuel tr).isSome = true) :
    ∃ (evs : Trace) (rdy : Nat),
      op.run target fuel tr = some (tr ++ evs) ∧
      (mosiBits evs).length = 8 * (4 * (exchanges evs).length) ∧
      exchanges evs ≠ [] ∧
      readyWaited false (exchanges evs) = true ∧
      (exchanges evs).getLast? = some ([0xF0, 0x00, 0x00, 0x00], rdy) ∧ rdy % 2 = 0 := by
  obtain ⟨out, h⟩ := Option.isSome_iff_exists.mp hret
  obtain ⟨evs, xs, rdy, hout, hw, hne, hwait, hlast, hrdy⟩ :=
    longWrite_exchanges target op fuel tr out hlong hr h
  have hx := wire_exchanges evs xs hw
  rw [← hx] at hne hwait hlast
  exact ⟨evs, rdy, by rw [h, hout], by rw [hx]; exact hw.2.2.1, hne, hwait, hlast, hrdy⟩

set_option maxRecDepth 1000000 in
/-- Witness of C12: a chip erase on a target that answers busy to the first
poll and ready to the second. -/
theorem longWrite_ends_with_readyWait_witness :
    ∃ (evs : Trace) (rdy : Nat),
      Op.run (busyPolls 1 1) 2 [] Op.chipErase = some ([] ++ evs) ∧
      (mosiBits evs).length = 8 * (4 * (exchanges evs).length) ∧
      exchanges evs ≠ [] ∧
      readyWaited false (exchanges evs) = true ∧
      (exchanges evs).getLast? = some ([0xF0, 0x00, 0x00, 0x00], rdy) ∧ rdy % 2 = 0 :=
  longWrite_ends_with_readyWait (busyPolls 1 1) Op.chipErase 2 [] (by decide) (by decide)
    (by decide)

/-! ## Whole frames -/

theorem misoSamples_attempts (frames : List Trace)
    (h : ∀ f, f ∈ frames → IsFrame programmingEnable f) :
    (misoSamples (List.flatten (frames.map (fun f => attemptHeader ++ f)))).length
        = 8 * (4 * frames.length) := by
  induction frames with
  | nil => rfl
  | cons f frames ih =>
    obtain ⟨_, _, hm, _⟩ := h f (List.mem_cons_self f frames)
    have ih1 := ih (fun g hg => h g (List.mem_cons_of_mem f hg))
    have hhead : misoSamples attemptHeader = [] := rfl
    simp only [List.map_cons, List.flatten_cons, misoSamples_append, hhead, List.nil_append,
      List.length_append, hm, ih1, List.length_cons]
    omega

/-- Every run of `AvrIspProgrammerEnableSerialProgramming` transfers whole
Programming-Enable frames, one per attempt. -/
theorem enableSerialProgramming_whole (target : Target) (tr : Trace) :
    ∃ (evs : Trace) (m : Nat),
      (AvrIspProgrammerEnableSerialProgramming target tr).2 = tr ++ evs ∧
      (mosiBits evs).length = 8 * (4 * m) ∧ (misoSamples evs).length = 8 * (4 * m) ∧
      1 ≤ m ∧ m ≤ 16 ∧
      sentBytes evs = List.flatten (List.replicate m [0xAC, 0x53, 0x00, 0x00]) := by
  have key : ∀ (k : Nat) (tail : Trace), mosiBits tail = [] → misoSamples tail = [] →
      1 ≤ k → k ≤ 16 →
      ∃ (evs : Trace) (m : Nat),
        afterAttempts target k (tr ++ [Event.IoInit]) ++ tail = tr ++ evs ∧
        (mosiBits evs).length = 8 * (4 * m) ∧ (misoSamples evs).length = 8 * (4 * m) ∧
        1 ≤ m ∧ m ≤ 16 ∧
        sentBytes evs = List.flatten (List.replicate m [0xAC, 0x53, 0x00, 0x00]) := by
    intro k tail ht1 ht2 hk1 hk16
    obtain ⟨frames, hlen, htrace, hall⟩ := afterAttempts_spec target k (tr ++ [Event.IoInit])
    obtain ⟨hbits, hsent⟩ := mosiBits_attempts frames hall
    have hmiso := misoSamples_attempts frames hall
    have hi1 : mosiBits [Event.IoInit] = [] := rfl
    have hi2 : misoSamples [Event.IoInit] = [] := rfl
    refine ⟨[Event.IoInit] ++ List.flatten (frames.map (fun f => attemptHeader ++ f)) ++ tail,
      k, ?_, ?_, ?_, hk1, hk16, ?_⟩
    · rw [htrace]; simp [List.append_assoc]
    · rw [mosiBits_append, mosiBits_append, ht1, hi1, List.append_nil, List.nil_append,
        hbits, hlen]
    · rw [misoSamples_append, misoSamples_append, ht2, hi2, List.append_nil, List.nil_append,
        hmiso, hlen]
    · unfold sentBytes at *
      rw [mosiBits_append, mosiBits_append, ht1, hi1, List.append_nil, List.nil_append,
        hsent, hlen]
      rfl
  rw [enableSerialProgramming_unfold]
  rcases enableLoop_cases target 16 (tr ++ [Event.IoInit]) with ⟨k, hk1, hk16, hk⟩ | hk
  · rw [hk]
    have := key k [] rfl rfl hk1 hk16
    simpa using this
  · rw [hk]
    exact key 16 [Event.ResetHigh] rfl rfl (by norm_num) (by norm_num)

theorem single_instruction_whole (target : Target) (b1 b2 b3 b4 : Nat) (tr : Trace)
    (h1 : b1 < 256) (h2 : b2 < 256) (h3 : b3 < 256) (h4 : b4 < 256) :
    ∃ (evs : Trace) (m : Nat),
      (AvrIspProgrammerSerialProgrammingInstruction target b1 b2 b3 b4 tr).2 = tr ++ evs ∧
      (mosiBits evs).length = 8 * (4 * m) ∧ (misoSamples evs).length = 8 * (4 * m) := by
  obtain ⟨evs, h, hw, _⟩ := instruction_wire target b1 b2 b3 b4 tr h1 h2 h3 h4
  exact ⟨evs, _, h, hw.2.2.1, hw.2.2.2.1⟩

/-- Every operation that returns has transferred whole four-byte frames. -/
theorem op_whole (target : Target) (op : Op) (fuel : Nat) (tr out : Trace)
    (hr : op.InRange) (h : op.run target fuel tr = some out) :
    ∃ (evs : Trace) (m : Nat), out = tr ++ evs ∧
      (mosiBits evs).length = 8 * (4 * m) ∧ (misoSamples evs).length = 8 * (4 * m) ∧
      (op = Op.begin → 1 ≤ m ∧ m ≤ 16 ∧
        sentBytes evs = List.flatten (List.replicate m [0xAC, 0x53, 0x00, 0x00])) := by
  have long : op.isLongWrite = true →
      ∃ (evs : Trace) (m : Nat), out = tr ++ evs ∧
        (mosiBits evs).length = 8 * (4 * m) ∧ (misoSamples evs).length = 8 * (4 * m) := by
    intro hl
    obtain ⟨evs, xs, _, hout, hw, _⟩ := longWrite_exchanges target op fuel tr out hl hr h
    exact ⟨evs, _, hout, hw.2.2.1, hw.2.2.2.1⟩
  cases op with
  | begin =>
    obtain ⟨evs, m, he, h1, h2, h3, h4, h5⟩ := enableSerialProgramming_whole target tr
    have ho : (AvrIspProgrammerEnableSerialProgramming target tr).2 = out := Option.some.inj h
    exact ⟨evs, m, by rw [← ho, he], h1, h2, fun _ => ⟨h3, h4, h5⟩⟩
  | poll =>
    obtain ⟨evs, _, he, hw, _, _⟩ := pollRDY_wire target tr
    have ho : (AvrIspProgrammerPollRDY target tr).2 = out := Option.some.inj h
    exact ⟨evs, _, by rw [← ho, he], hw.2.2.1, hw.2.2.2.1, fun hc => Op.noConfusion hc⟩
  | waitReady =>
    obtain ⟨evs, _, _, hout, hw, _⟩ := waitReady_spec target fuel tr out h
    exact ⟨evs, _, hout, hw.2.2.1, hw.2.2.2.1, fun hc => Op.noConfusion hc⟩
  | chipErase =>
    obtain ⟨evs, m, h1, h2, h3⟩ := long rfl
    exact ⟨evs, m, h1, h2, h3, fun hc => Op.noConfusion hc⟩
  | writeMemoryPage a =>
    obtain ⟨evs, m, h1, h2, h3⟩ := long rfl
    exact ⟨evs, m, h1, h2, h3, fun hc => Op.noConfusion hc⟩
  | writeLockBits b =>
    obtain ⟨evs, m, h1, h2, h3⟩ := long rfl
    exact ⟨evs, m, h1, h2, h3, fun hc => Op.noConfusion hc⟩
  | writeFuseBits f =>
    obtain ⟨evs, m, h1, h2, h3⟩ := long rfl
    exact ⟨evs, m, h1, h2, h3, fun hc => Op.noConfusion hc⟩
  | loadExtendedAddress e =>
    have he : e < 256 := hr
    obtain ⟨evs, m, h1, h2, h3⟩ := single_instruction_whole target 0x4D 0x00 e 0x00 tr
      (by norm_num) (by norm_num) he (by norm_num)
    have ho : (AvrIspProgrammerSerialProgrammingInstruction target 0x4D 0x00 e 0x00 tr).2
      = out := Option.some.inj h
    exact ⟨evs, m, by rw [← ho, h1], h2, h3, fun hc => Op.noConfusion hc⟩
  | loadProgramMemoryPage a d =>
    have hd : d < 256 := hr.2
    obtain ⟨evs, he, _, hm, hi, _⟩ := loadProgramMemoryPage_spec target a d tr hd
    have ho : AvrIspProgrammerLoadProgramMemoryPage target a d tr = out := Option.some.inj h
    exact ⟨evs, 1, by rw [← ho, he], hm, hi, fun hc => Op.noConfusion hc⟩
  | readProgramMemory a =>
    have ha : a < 65536 := hr
    obtain ⟨evs, _, _, _, he, ⟨_, hm, hi, _⟩, _⟩ := readProgramMemory_spec target a tr ha
    have ho : (AvrIspProgrammerReadProgramMemory target a tr).2 = out := Option.some.inj h
    exact ⟨evs, 1, by rw [← ho, he], hm, hi, fun hc => Op.noConfusion hc⟩
  | readLockBits =>
    obtain ⟨evs, m, h1, h2, h3⟩ := single_instruction_whole target 0x58 0x00 0x00 0x00 tr
      (by norm_num) (by norm_num) (by norm_num) (by norm_num)
    have ho : (AvrIspProgrammerSerialProgrammingInstruction target 0x58 0x00 0x00 0x00 tr).2
      = out := Option.some.inj h
    exact ⟨evs, m, by rw [← ho, h1], h2, h3, fun hc => Op.noConfusion hc⟩
  | readCalibrationByte =>
    obtain ⟨evs, m, h1, h2, h3⟩ := single_instruction_whole target 0x38 0x00 0x00 0x00 tr
      (by norm_num) (by norm_num) (by norm_num) (by norm_num)
    have ho : (AvrIspProgrammerSerialProgrammingInstruction target 0x38 0x00 0x00 0x00 tr).2
      = out := Option.some.inj h
    exact ⟨evs, m, by rw [← ho, h1], h2, h3, fun hc => Op.noConfusion hc⟩
  | readFuseBits f =>
    obtain ⟨evs, he, hw⟩ := three_instructions target 0x50 0x00 0x00 0x00
      0x58 0x08 0x00 0x00 0x50 0x08 0x00 0x00 tr (by norm_num) (by norm_num) (by norm_num)
    have ho : (AvrIspProgrammerReadFuseBits target f tr).2 = out := Option.some.inj h
    exact ⟨evs, _, by rw [← ho]; exact he, hw.2.2.1, hw.2.2.2.1, fun hc => Op.noConfusion hc⟩
  | readSignature s =>
    obtain ⟨evs, he, hw⟩ := three_instructions target 0x30 0x00 0 0x00
      0x30 0x00 1 0x00 0x30 0x00 2 0x00 tr (by norm_num) (by norm_num) (by norm_num)
    have ho : (AvrIspProgrammerReadSignature target s tr).2 = out := Option.some.inj h
    unfold AvrIspProgrammerReadSignature at ho
    rw [readSignatureLoop_three] at ho
    exact ⟨evs, _, by rw [← ho]; exact he, hw.2.2.1, hw.2.2.2.1, fun hc => Op.noConfusion hc⟩

/-- C18. Every operation of the header that returns has performed a number
of byte transfers that is a multiple of 4 (a byte transfer drives data-out
and samples data-in eight times each): the wire carries whole four-byte
frames only.  For `AvrIspProgrammerEnableSerialProgramming` the bytes sent
are `m` complete Programming-Enable frames for `m` attempts, so the fourth
byte of the attempt that succeeds is still transferred. -/
theorem operations_whole_frames (target : Target) (op : Op) (fuel : Nat) (tr : Trace)
    (hr : op.InRange) (hret : (op.run target fuel tr).isSome = true) :
    ∃ (evs : Trace) (m : Nat),
      op.run target fuel tr = some (tr ++ evs) ∧
      (mosiBits evs).length = 8 * (4 * m) ∧ (misoSamples evs).length = 8 * (4 * m) ∧
      (op = Op.begin → 1 ≤ m ∧ m ≤ 16 ∧
        sentBytes evs = List.flatten (List.replicate m [0xAC, 0x53, 0x00, 0x00])) := by
  obtain ⟨out, h⟩ := Option.isSome_iff_exists.mp hret
  obtain ⟨evs, m, hout, h1, h2, h3⟩ := op_whole target op fuel tr out hr h
  exact ⟨evs, m, by rw [h, hout], h1, h2, h3⟩

/-- Witness of C18: entering programming mode on a target that answers
`0x53` in the first attempt. -/
theorem operations_whole_frames_witness :
    ∃ (evs : Trace) (m : Nat),
      Op.run (syncAt 1) 0 [] Op.begin = some ([] ++ evs) ∧
      (mosiBits evs).length = 8 * (4 * m) ∧ (misoSamples evs).length = 8 * (4 * m) ∧
      (Op.begin = Op.begin → 1 ≤ m ∧ m ≤ 16 ∧
        sentBytes evs = List.flatten (List.replicate m [0xAC, 0x53, 0x00, 0x00])) :=
  operations_whole_frames (syncAt 1) Op.begin 0 [] trivial rfl

/-! ## Address arithmetic of the frames -/

/-- C19. The frame `(op, MSB, LSB, 0x00)` sent by
`AvrIspProgrammerReadProgramMemory` for a 16-bit byte address determines the
address: `address = 2 * (256 * MSB + LSB) + 1` when `op = 0x28` and
`2 * (256 * MSB + LSB)` when `op = 0x20`, with `MSB ≤ 0x7F`; so two addresses
that give the same frame are equal. -/
theorem readProgramMemory_address_determined (target : Target) (address : Nat) (tr : Trace)
    (ha : address < 65536) :
    ∃ (evs : Trace) (op msb lsb : Nat),
      (AvrIspProgrammerReadProgramMemory target address tr).2 = tr ++ evs ∧
      sentBytes evs = [op, msb, lsb, 0x00] ∧
      (op = 0x28 ∨ op = 0x20) ∧
      address = 2 * (256 * msb + lsb) + (if op = 0x28 then 1 else 0) ∧
      msb ≤ 0x7F ∧
      ∀ (target2 : Target) (address2 : Nat) (tr2 evs2 : Trace), address2 < 65536 →
        (AvrIspProgrammerReadProgramMemory target2 address2 tr2).2 = tr2 ++ evs2 →
        sentBytes evs2 = sentBytes evs → address2 = address := by
  obtain ⟨evs, _, _, _, h, ⟨hs, _, _, _⟩, _⟩ := readProgramMemory_spec target address tr ha
  have harith : ∀ a : Nat, a < 65536 →
      a = 2 * (256 * ((a >>> 1) >>> 8) + ((a >>> 1) &&& 0xFF)) + a % 2 ∧
        (a >>> 1) >>> 8 ≤ 0x7F := by
    intro a h
    rw [and_ff, shiftRight_eight, shiftRight_one]
    omega
  refine ⟨evs, _, _, _, h, hs, ?_, ?_, (harith address ha).2, ?_⟩
  · by_cases hodd : address % 2 = 1 <;> simp [hodd]
  · have h1 := (harith address ha).1
    by_cases hodd : address % 2 = 1
    · rw [if_pos hodd, if_pos rfl]; omega
    · rw [if_neg hodd, if_neg (by norm_num)]; omega
  · intro target2 address2 tr2 evs2 ha2 h2 heq
    obtain ⟨evs3, _, _, _, h3, ⟨hs3, _, _, _⟩, _⟩ :=
      readProgramMemory_spec target2 address2 tr2 ha2
    have he : evs2 = evs3 := List.append_cancel_left (h2.symm.trans h3)
    rw [he, hs3, hs] at heq
    have e1 := (harith address ha).1
    have e2 := (harith address2 ha2).1
    simp only [List.cons.injEq, and_true] at heq
    obtain ⟨hop, hmsb, hlsb⟩ := heq
    have hpar : address2 % 2 = address % 2 := by
      by_cases o1 : address % 2 = 1 <;> by_cases o2 : address2 % 2 = 1 <;>
        simp [o1, o2] at hop <;> omega
    rw [hmsb, hlsb, hpar] at e2
    omega

/-- Witness of C19 at the address `0x1235`. -/
theorem readProgramMemory_address_determined_witness :
    ∃ (evs : Trace) (op msb lsb : Nat),
      (AvrIspProgrammerReadProgramMemory silent 0x1235 []).2 = [] ++ evs ∧
      sentBytes evs = [op, msb, lsb, 0x00] ∧
      (op = 0x28 ∨ op = 0x20) ∧
      0x1235 = 2 * (256 * msb + lsb) + (if op = 0x28 then 1 else 0) ∧
      msb ≤ 0x7F ∧
      ∀ (target2 : Target) (address2 : Nat) (tr2 evs2 : Trace), address2 < 65536 →
        (AvrIspProgrammerReadProgramMemory target2 address2 tr2).2 = tr2 ++ evs2 →
        sentBytes evs2 = sentBytes evs → address2 = 0x1235 :=
  readProgramMemory_address_determined silent 0x1235 [] (by decide)

/-- C20. `AvrIspProgrammerLoadProgramMemoryPage` keeps the low eight bits of
the word address only: the third byte of its frame is
`(address >> 1) mod 256`, so for `address < 65024` the calls with `address`
and with `address + 512` put the same frame, indeed the same line actions, on
the wire. -/
theorem loadProgramMemoryPage_wraps (target : Target) (address data : Nat) (tr : Trace)
    (ha : address < 65024) (hd : data < 256) :
    ∃ (evs : Trace) (b1 b2 : Nat),
      AvrIspProgrammerLoadProgramMemoryPage target address data tr = tr ++ evs ∧
      AvrIspProgrammerLoadProgramMemoryPage target (address + 512) data tr = tr ++ evs ∧
      address + 512 < 65536 ∧
      (mosiBits evs).length = 4 * 8 ∧
      sentBytes evs = [b1, b2, (address >>> 1) % 256, data] ∧
      ((address + 512) >>> 1) % 256 = (address >>> 1) % 256 := by
  obtain ⟨evs, h, hs, hm, _, _⟩ := loadProgramMemoryPage_spec target address data tr hd
  have hw : ((address + 512) >>> 1) % 256 = (address >>> 1) % 256 := by
    rw [shiftRight_one, shiftRight_one]; omega
  have hp : (address + 512) &&& 0x01 = address &&& 0x01 := by
    rw [Nat.and_one_is_mod, Nat.and_one_is_mod]; omega
  have hsame : AvrIspProgrammerLoadProgramMemoryPage target (address + 512) data tr
      = AvrIspProgrammerLoadProgramMemoryPage target address data tr := by
    unfold AvrIspProgrammerLoadProgramMemoryPage
    simp only [hw, hp]
  exact ⟨evs, _, _, h, by rw [hsame, h], by omega, hm, hs, hw⟩

/-- Witness of C20 at address `0x0203`, data `0x5A`. -/
theorem loadProgramMemoryPage_wraps_witness :
    ∃ (evs : Trace) (b1 b2 : Nat),
      AvrIspProgrammerLoadProgramMemoryPage silent 0x0203 0x5A [] = [] ++ evs ∧
      AvrIspProgrammerLoadProgramMemoryPage silent (0x0203 + 512) 0x5A [] = [] ++ evs ∧
      0x0203 + 512 < 65536 ∧
      (mosiBits evs).length = 4 * 8 ∧
      sentBytes evs = [b1, b2, (0x0203 >>> 1) % 256, 0x5A] ∧
      ((0x0203 + 512) >>> 1) % 256 = (0x0203 >>> 1) % 256 :=
  loadProgramMemoryPage_wraps silent 0x0203 0x5A [] (by decide) (by decide)

end AvrIsp
